import Mathlib

/-!
# Verification of `prime-algos-rs`

A shallow embedding of the three crates of the repository
(`prime-iter`, `next-prime`, `miller-rabin`) together with proofs of the
specification claims.

Machine integers of a fixed-width type `T` are modelled as `Nat` together
with an explicit maximum value `M` (e.g. `M = 255` for `u8`,
`M = 127` for `i8`, `M = 2^64 - 1` for `usize`); the checked arithmetic of
the source (`checked_add`, `checked_mul`) becomes an `Option Nat` guarded by
`M`.  `BigUint` is modelled as `Nat` and `BigInt` as `Int`.  Fallible code
(index-out-of-bounds panics, `expect` on overflow) returns `Option`.
Loops that the source runs without a static bound are given explicit fuel;
the fuel chosen in each definition is provably sufficient for every
reachable state, which the lemmas below establish.
-/

set_option maxRecDepth 100000
set_option exponentiation.threshold 5000

namespace PrimeAlgos

/-- Executable primality test by trial division (`d*d ≤ n` bound), used as the
reference predicate.  `fuel` bounds the recursion; `isPrimeTD` passes `n`,
which always suffices. -/
def isPrimeAux (n : Nat) : Nat → Nat → Bool
  | 0, _ => true
  | fuel+1, d => if n < d * d then true else if n % d = 0 then false else isPrimeAux n fuel (d+1)

/-- Executable primality test: `isPrimeTD n = true ↔ Nat.Prime n`. -/
def isPrimeTD (n : Nat) : Bool :=
  decide (2 ≤ n) && isPrimeAux n n 2

theorem isPrimeAux_spec (n : Nat) : ∀ fuel d, 2 ≤ d → d + fuel ≥ n →
    (isPrimeAux n fuel d = true ↔ ∀ m, d ≤ m → m * m ≤ n → ¬ m ∣ n) := by
  intro fuel
  induction fuel with
  | zero =>
    intro d hd hdn
    simp only [isPrimeAux, true_iff]
    intro m hm hmm hdvd
    have h2 : 2 ≤ m := le_trans hd hm
    have : m ≤ n := Nat.le_of_dvd (by nlinarith) hdvd
    nlinarith
  | succ fuel ih =>
    intro d hd hdn
    simp only [isPrimeAux]
    by_cases h1 : n < d * d
    · simp only [if_pos h1, true_iff]
      intro m hm hmm
      nlinarith
    · rw [if_neg h1]
      by_cases h2 : n % d = 0
      · simp only [if_pos h2, Bool.false_eq_true, false_iff, not_forall]
        exact ⟨d, le_refl d, Nat.not_lt.mp h1, not_not_intro (Nat.dvd_of_mod_eq_zero h2)⟩
      · rw [if_neg h2]
        rw [ih (d+1) (by omega) (by omega)]
        constructor
        · intro h m hm hmm hdvd
          rcases Nat.eq_or_lt_of_le hm with rfl | hlt
          · exact h2 (Nat.mod_eq_zero_of_dvd hdvd)
          · exact h m hlt hmm hdvd
        · intro h m hm hmm hdvd
          exact h m (le_trans (Nat.le_succ d) hm) hmm hdvd

theorem isPrimeTD_iff (n : Nat) : isPrimeTD n = true ↔ Nat.Prime n := by
  unfold isPrimeTD
  rw [Bool.and_eq_true, decide_eq_true_iff]
  rw [isPrimeAux_spec n n 2 (le_refl 2) (by omega)]
  constructor
  · rintro ⟨h2, h⟩
    rw [Nat.prime_def_le_sqrt]
    refine ⟨h2, fun m hm hms => h m hm (Nat.le_sqrt.mp hms)⟩
  · intro hp
    refine ⟨hp.two_le, fun m hm hmm hdvd => ?_⟩
    rcases (Nat.Prime.eq_one_or_self_of_dvd hp m hdvd) with h1 | h1
    · omega
    · subst h1; nlinarith [hp.two_le]

/-!
## Embedding of crate `prime-iter` (`src/crates/prime-iter/src/lib.rs`)

`PrimeSieveIter<T>` holds a `BTreeMap<T, T>` (modelled as an association
list with pairwise-distinct keys; the `BTreeMap` order is never observed by
the code, only membership, removal and insertion) and an
`Option<T>` candidate.  The type parameter `T` becomes the bound `M`
(maximum representable value); `checked_add`/`checked_mul` guard against
exceeding `M`.
-/

/-- Association-list model of the `BTreeMap<T, T>` sieve map. -/
abbrev SieveMap := List (Nat × Nat)

/-- `BTreeMap::contains_key`. -/
def hasKey (m : SieveMap) (k : Nat) : Bool := m.any (fun e => e.1 == k)

/-- `BTreeMap::remove` (returning the stored stride). -/
def lookupKey (m : SieveMap) (k : Nat) : Option Nat :=
  (m.find? (fun e => e.1 == k)).map (fun e => e.2)

/-- Key removal part of `BTreeMap::remove`. -/
def eraseKey (m : SieveMap) (k : Nat) : SieveMap := m.filter (fun e => e.1 != k)

/-- `BTreeMap::insert` (keys are unique, so replace-or-add). -/
def insertKey (m : SieveMap) (k v : Nat) : SieveMap := (k, v) :: eraseKey m k

/-- `checked_add` on the type with maximum `M`. -/
def chkAdd (M a b : Nat) : Option Nat := if a + b ≤ M then some (a + b) else none

/-- `checked_mul` on the type with maximum `M`. -/
def chkMul (M a b : Nat) : Option Nat := if a * b ≤ M then some (a * b) else none

/-- State of `PrimeSieveIter`. -/
structure SieveState where
  sieveMap : SieveMap
  nextCandidate : Option Nat

/-- The `successors(curr.checked_add(&stride), |&n| n.checked_add(&stride))
.find(|n| !self.sieve_map.contains_key(n))` scan: first multiple
`y, y+s, y+2*s, ...` that is `≤ M` and not an occupied key; `none` once the
value exceeds `M` (the `checked_add` failing).  `fuel` bounds the recursion;
`M + 2` steps always suffice since `s ≥ 1` in every reachable call (were
`s = 0` the Rust loop would not terminate either). -/
def findSlot (M s : Nat) (m : SieveMap) : Nat → Nat → Option Nat
  | 0, _ => none
  | fuel+1, y =>
    if y ≤ M then (if hasKey m y then findSlot M s m fuel (y + s) else some y)
    else none

/-- The `loop { ... }` body of `PrimeSieveIter::next` for odd candidates:
either yields the next prime together with the successor state, or `none`
when the candidates are exhausted.  `fuel ≥ M + 2` always suffices (the
candidate grows by 2 each iteration and is bounded by `M`). -/
def sieveLoop (M : Nat) : Nat → SieveMap → Option Nat → Option (Nat × SieveState)
  | 0, _, _ => none
  | fuel+1, m, oc =>
    match oc with
    | none => none
    | some curr =>
      let nc := chkAdd M curr 2
      match lookupKey m curr with
      | some stride =>
        -- composite number
        let m1 := eraseKey m curr
        let m2 := match findSlot M stride m1 (M + 2) (curr + stride) with
                  | some slot => insertKey m1 slot stride
                  | none => m1
        sieveLoop M fuel m2 nc
      | none =>
        -- prime number
        let m2 := match chkMul M curr curr with
                  | some sq => insertKey m sq (curr * 2)
                  | none => m
        some (curr, ⟨m2, nc⟩)

/-- `PrimeSieveIter::next`: the special case for the candidate 2 (where
`self.next_candidate = T::from(3u8)`), then the odd-candidate loop. -/
def sieveNext (M : Nat) (st : SieveState) : Option (Nat × SieveState) :=
  match st.nextCandidate with
  | none => none
  | some curr =>
    if curr = 2 then some (2, ⟨st.sieveMap, if 3 ≤ M then some 3 else none⟩)
    else sieveLoop M (M + 2) st.sieveMap st.nextCandidate

/-- `prime_iter::new::<T>()`: empty map, candidate `T::from(2u8)`. -/
def initState (M : Nat) : SieveState :=
  ⟨[], if 2 ≤ M then some 2 else none⟩

/-- The list of the first `f` outputs of the iterator (an `f`-step lazy
unfolding; the iterator reports exhaustion by `none`, at which point the
list ends). -/
def sieveList (M : Nat) : Nat → SieveState → List Nat
  | 0, _ => []
  | f+1, st =>
    match sieveNext M st with
    | none => []
    | some (p, st') => p :: sieveList M f st'

/-- The ascending list of all primes `≤ M`. -/
def primesUpTo (M : Nat) : List Nat := (List.range (M + 1)).filter isPrimeTD

/-- The ascending list of all primes `p` with `c ≤ p ≤ M`. -/
def primesFrom (c M : Nat) : List Nat :=
  (List.range (M + 1)).filter (fun x => decide (c ≤ x) && isPrimeTD x)

/-- The candidate encoding: `next_candidate` holds `some c` while `c` is
representable and `none` once the `checked_add` producing it overflowed. -/
def encCand (M c : Nat) : Option Nat := if c ≤ M then some c else none

/-! ### Association-list map lemmas -/

theorem hasKey_iff (m : SieveMap) (k : Nat) :
    hasKey m k = true ↔ ∃ e ∈ m, e.1 = k := by
  simp [hasKey, List.any_eq_true]

theorem hasKey_false_iff (m : SieveMap) (k : Nat) :
    hasKey m k = false ↔ ∀ e ∈ m, e.1 ≠ k := by
  rw [← Bool.not_eq_true, hasKey_iff]
  push_neg
  rfl

theorem lookupKey_some_mem {m : SieveMap} {k s : Nat}
    (h : lookupKey m k = some s) : (k, s) ∈ m := by
  unfold lookupKey at h
  rcases Option.map_eq_some'.mp h with ⟨e, he, hs⟩
  have hmem := List.mem_of_find?_eq_some he
  have hkey : e.1 = k := by
    have := List.find?_some he
    simpa using this
  have : e = (k, s) := by
    cases e
    simp only at hkey hs
    simp [hkey, hs]
  exact this ▸ hmem

theorem lookupKey_none_iff (m : SieveMap) (k : Nat) :
    lookupKey m k = none ↔ hasKey m k = false := by
  unfold lookupKey
  rw [Option.map_eq_none', List.find?_eq_none, hasKey_false_iff]
  constructor
  · intro h e he
    have := h e he
    simpa using this
  · intro h e he
    simpa using h e he

theorem lookupKey_isSome_of_hasKey {m : SieveMap} {k : Nat}
    (h : hasKey m k = true) : ∃ s, lookupKey m k = some s := by
  cases hl : lookupKey m k with
  | none => rw [lookupKey_none_iff] at hl; rw [h] at hl; cases hl
  | some s => exact ⟨s, rfl⟩

theorem mem_eraseKey {m : SieveMap} {k : Nat} {e : Nat × Nat} :
    e ∈ eraseKey m k ↔ e ∈ m ∧ e.1 ≠ k := by
  unfold eraseKey
  rw [List.mem_filter]
  simp [bne_iff_ne]

theorem hasKey_eraseKey (m : SieveMap) (k x : Nat) :
    hasKey (eraseKey m k) x = true ↔ hasKey m x = true ∧ x ≠ k := by
  simp only [hasKey_iff]
  constructor
  · rintro ⟨e, he, rfl⟩
    rw [mem_eraseKey] at he
    exact ⟨⟨e, he.1, rfl⟩, he.2⟩
  · rintro ⟨⟨e, he, rfl⟩, hne⟩
    exact ⟨e, mem_eraseKey.mpr ⟨he, hne⟩, rfl⟩

theorem eraseKey_of_not_hasKey {m : SieveMap} {k : Nat}
    (h : hasKey m k = false) : eraseKey m k = m := by
  unfold eraseKey
  apply List.filter_eq_self.mpr
  intro e he
  rw [hasKey_false_iff] at h
  simpa [bne_iff_ne] using h e he

theorem mem_insertKey {m : SieveMap} {k v : Nat} {e : Nat × Nat} :
    e ∈ insertKey m k v ↔ e = (k, v) ∨ (e ∈ m ∧ e.1 ≠ k) := by
  unfold insertKey
  rw [List.mem_cons, mem_eraseKey]

theorem hasKey_insertKey (m : SieveMap) (k v x : Nat) :
    hasKey (insertKey m k v) x = true ↔ x = k ∨ hasKey m x = true := by
  simp only [hasKey_iff]
  constructor
  · rintro ⟨e, he, rfl⟩
    rcases mem_insertKey.mp he with rfl | ⟨he, _⟩
    · exact Or.inl rfl
    · exact Or.inr ⟨e, he, rfl⟩
  · rintro (rfl | ⟨e, he, rfl⟩)
    · exact ⟨(x, v), mem_insertKey.mpr (Or.inl rfl), rfl⟩
    · by_cases hek : e.1 = k
      · exact ⟨(k, v), mem_insertKey.mpr (Or.inl rfl), hek.symm⟩
      · exact ⟨e, mem_insertKey.mpr (Or.inr ⟨he, hek⟩), rfl⟩

/-- The well-formedness relation on map entries: distinct keys and distinct
strides. -/
def EntryNe (e₁ e₂ : Nat × Nat) : Prop := e₁.1 ≠ e₂.1 ∧ e₁.2 ≠ e₂.2

theorem entryNe_symm : ∀ {e₁ e₂ : Nat × Nat}, EntryNe e₁ e₂ → EntryNe e₂ e₁ := by
  rintro e₁ e₂ ⟨h1, h2⟩
  exact ⟨h1.symm, h2.symm⟩

theorem pairwise_forall_ne {m : SieveMap} (hwf : m.Pairwise EntryNe) :
    ∀ e₁ ∈ m, ∀ e₂ ∈ m, e₁ ≠ e₂ → EntryNe e₁ e₂ := by
  intro e₁ h₁ e₂ h₂ hne
  exact List.Pairwise.forall (fun _ _ => entryNe_symm) hwf h₁ h₂ hne

/-- Stride uniqueness: two entries with the same stride are the same entry. -/
theorem stride_unique {m : SieveMap} (hwf : m.Pairwise EntryNe)
    {e₁ e₂ : Nat × Nat} (h₁ : e₁ ∈ m) (h₂ : e₂ ∈ m) (h : e₁.2 = e₂.2) :
    e₁ = e₂ := by
  by_contra hne
  exact (pairwise_forall_ne hwf e₁ h₁ e₂ h₂ hne).2 h

theorem pairwise_eraseKey {m : SieveMap} (hwf : m.Pairwise EntryNe) (k : Nat) :
    (eraseKey m k).Pairwise EntryNe :=
  List.Pairwise.sublist (List.filter_sublist m) hwf

/-! ### `findSlot` (the `successors … find` scan) -/

theorem findSlot_some_spec {M s : Nat} {m : SieveMap} :
    ∀ {fuel y z : Nat}, findSlot M s m fuel y = some z →
    ∃ j, z = y + s * j ∧ z ≤ M ∧ hasKey m z = false ∧
      ∀ i, i < j → hasKey m (y + s * i) = true := by
  intro fuel
  induction fuel with
  | zero => intro y z h; simp [findSlot] at h
  | succ fuel ih =>
    intro y z h
    unfold findSlot at h
    by_cases hyM : y ≤ M
    · rw [if_pos hyM] at h
      by_cases hk : hasKey m y
      · rw [if_pos hk] at h
        rcases ih h with ⟨j, hz, hzM, hzk, hcov⟩
        refine ⟨j + 1, by rw [hz]; ring, hzM, hzk, ?_⟩
        intro i hi
        cases i with
        | zero => simpa using hk
        | succ i =>
          have := hcov i (by omega)
          have harith : y + s * (i + 1) = y + s + s * i := by ring
          rw [harith]
          exact this
      · rw [if_neg hk] at h
        injection h with h
        subst h
        exact ⟨0, by omega, hyM, by simpa using hk, fun i hi => absurd hi (by omega)⟩
    · rw [if_neg hyM] at h
      cases h

theorem findSlot_none_spec {M s : Nat} {m : SieveMap} (hs : 1 ≤ s) :
    ∀ {fuel y : Nat}, M + 1 ≤ fuel + y → findSlot M s m fuel y = none →
    ∀ j, y + s * j ≤ M → hasKey m (y + s * j) = true := by
  intro fuel
  induction fuel with
  | zero =>
    intro y hfy _ j hj
    omega
  | succ fuel ih =>
    intro y hfy h j hj
    unfold findSlot at h
    by_cases hyM : y ≤ M
    · rw [if_pos hyM] at h
      by_cases hk : hasKey m y
      · rw [if_pos hk] at h
        cases j with
        | zero => simpa using hk
        | succ j =>
          have harith : y + s * (j + 1) = (y + s) + s * j := by ring
          rw [harith]
          exact ih (by omega) h j (by omega)
      · rw [if_neg hk] at h
        cases h
    · omega

/-! ### The sieve invariant -/

/-- The invariant of a reachable `PrimeSieveIter` state with odd frontier
candidate `c`.

* `wf`: keys and strides are pairwise distinct.
* `entries`: every entry `(k, 2*p)` records a prime `p`, already produced
  (`p < c`), whose square fits (`p*p ≤ M`), and `k` is an odd composite
  multiple of `p` in the window `[c, M]`.
* `covered`: for every already-produced odd prime `p` whose square fits,
  either `p`'s entry is present and every odd multiple of `p` with least
  factor `p` below that entry's key is currently some entry's key, or
  `p`'s entry has been dropped and every such multiple up to `M` is some
  entry's key. -/
structure Inv (M c : Nat) (m : SieveMap) : Prop where
  wf : m.Pairwise EntryNe
  entries : ∀ e ∈ m, ∃ p, e.2 = 2 * p ∧ Nat.Prime p ∧ p % 2 = 1 ∧ p ∣ e.1 ∧
    e.1 % 2 = 1 ∧ c ≤ e.1 ∧ e.1 ≤ M ∧ p < e.1 ∧ p < c ∧ p * p ≤ M
  covered : ∀ p, Nat.Prime p → p % 2 = 1 → p < c → p * p ≤ M →
    (∃ e ∈ m, e.2 = 2 * p ∧ ∀ x, c ≤ x → x < e.1 → p ∣ x → x % 2 = 1 →
        Nat.minFac x = p → hasKey m x = true)
    ∨ ((∀ e ∈ m, e.2 ≠ 2 * p) ∧ ∀ x, c ≤ x → x ≤ M → p ∣ x → x % 2 = 1 →
        Nat.minFac x = p → hasKey m x = true)

theorem inv_key_not_prime {M c : Nat} {m : SieveMap} (hInv : Inv M c m)
    {x : Nat} (hx : hasKey m x = true) : ¬ Nat.Prime x := by
  rcases (hasKey_iff m x).mp hx with ⟨e, he, hek⟩
  rcases hInv.entries e he with ⟨p, _, hp, _, hdvd, _, _, _, hplt, _, _⟩
  subst hek
  intro hxp
  rcases hxp.eq_one_or_self_of_dvd p hdvd with h1 | h1
  · exact hp.one_lt.ne' h1
  · omega

theorem inv_hasKey_of_composite {M c : Nat} {m : SieveMap} (hInv : Inv M c m)
    (hodd : c % 2 = 1) (h3 : 3 ≤ c) (hcM : c ≤ M) (hnp : ¬ Nat.Prime c) :
    hasKey m c = true := by
  set p := Nat.minFac c with hpdef
  have hc1 : c ≠ 1 := by omega
  have hp : Nat.Prime p := Nat.minFac_prime hc1
  have hpdvd : p ∣ c := Nat.minFac_dvd c
  have hpodd : p % 2 = 1 := by
    rcases Nat.Prime.eq_two_or_odd hp with h2 | h
    · exfalso
      have : (2 : Nat) ∣ c := h2 ▸ hpdvd
      omega
    · exact h
  have hplt : p < c := (Nat.not_prime_iff_minFac_lt (by omega)).mp hnp
  have hpp : p * p ≤ M := by
    have h1 : Nat.minFac c ^ 2 ≤ c := Nat.minFac_sq_le_self (by omega) hnp
    calc p * p = Nat.minFac c ^ 2 := by rw [hpdef]; ring
    _ ≤ c := h1
    _ ≤ M := hcM
  rcases hInv.covered p hp hpodd hplt hpp with ⟨e, he, _, hcov⟩ | ⟨_, hcov⟩
  · by_cases hlt : c < e.1
    · exact hcov c (le_refl c) hlt hpdvd hodd rfl
    · rcases hInv.entries e he with ⟨q, _, _, _, _, _, hce, _, _, _, _⟩
      have : e.1 = c := by omega
      exact (hasKey_iff m c).mpr ⟨e, he, this⟩
  · exact hcov c (le_refl c) hcM hpdvd hodd rfl

theorem minFac_mult_lt_sq {p x : Nat} (hp : Nat.Prime p) (hdvd : p ∣ x)
    (hgt : p < x) (hlt : x < p * p) (hmf : Nat.minFac x = p) : False := by
  obtain ⟨t, rfl⟩ := hdvd
  have hp2 := hp.two_le
  have ht2 : 2 ≤ t := by nlinarith
  have htp : t < p := by
    by_contra h
    push_neg at h
    nlinarith
  have hmt : Nat.minFac t ∣ p * t := (Nat.minFac_dvd t).mul_left p
  have h2mt : 2 ≤ Nat.minFac t := (Nat.minFac_prime (by omega)).two_le
  have hle : Nat.minFac (p * t) ≤ Nat.minFac t := Nat.minFac_le_of_dvd h2mt hmt
  have hmtt : Nat.minFac t ≤ t := Nat.minFac_le (by omega)
  omega

theorem inv_not_hasKey_of_prime {M c : Nat} {m : SieveMap} (hInv : Inv M c m)
    {x : Nat} (hx : Nat.Prime x) : hasKey m x = false := by
  cases h : hasKey m x with
  | false => rfl
  | true => exact absurd hx (inv_key_not_prime hInv h)

theorem inv_shift {M c : Nat} {m : SieveMap} (hInv : Inv M c m)
    (hodd : c % 2 = 1) (hnk : hasKey m c = false) :
    ∀ e ∈ m, c + 2 ≤ e.1 := by
  intro e he
  rcases hInv.entries e he with ⟨p, _, _, _, _, heodd, hce, _, _, _, _⟩
  have hne : e.1 ≠ c := by
    intro h
    rw [hasKey_false_iff] at hnk
    exact hnk e he h
  omega

theorem inv_prime_step_fit {M c : Nat} {m : SieveMap} (hInv : Inv M c m)
    (hodd : c % 2 = 1) (h3 : 3 ≤ c) (hcM : c ≤ M) (hprime : Nat.Prime c)
    (hsq : c * c ≤ M) :
    Inv M (c + 2) (insertKey m (c * c) (c * 2)) := by
  have hnk : hasKey m c = false := inv_not_hasKey_of_prime hInv hprime
  have hshift : ∀ e ∈ m, c + 2 ≤ e.1 := inv_shift hInv hodd hnk
  have hnkcc : hasKey m (c * c) = false := by
    cases h : hasKey m (c * c) with
    | false => rfl
    | true =>
      exfalso
      rcases (hasKey_iff _ _).mp h with ⟨e, he, hek⟩
      rcases hInv.entries e he with ⟨p, _, hp, _, hdvd, _, _, _, _, hpc, _⟩
      rw [hek] at hdvd
      have hpc' : p ∣ c := ((Nat.Prime.dvd_mul hp).mp hdvd).elim id id
      rcases Nat.Prime.eq_one_or_self_of_dvd hprime p hpc' with h1 | h1
      · exact hp.one_lt.ne' h1
      · omega
  have hmem2 : ∀ e, e ∈ insertKey m (c * c) (c * 2) ↔ e = (c * c, c * 2) ∨ e ∈ m := by
    intro e
    rw [mem_insertKey]
    constructor
    · rintro (h | ⟨h, _⟩)
      exacts [Or.inl h, Or.inr h]
    · rintro (h | h)
      · exact Or.inl h
      · refine Or.inr ⟨h, fun hek => ?_⟩
        rw [hasKey_false_iff] at hnkcc
        exact hnkcc e h hek
  refine ⟨?_, ?_, ?_⟩
  · unfold insertKey
    rw [eraseKey_of_not_hasKey hnkcc]
    refine List.Pairwise.cons (fun e he => ?_) hInv.wf
    rcases hInv.entries e he with ⟨p, hep, _, _, _, _, _, _, _, hpc, _⟩
    refine ⟨fun h => ?_, ?_⟩
    · rw [hasKey_false_iff] at hnkcc
      exact hnkcc e he h.symm
    · show c * 2 ≠ e.2
      rw [hep]
      omega
  · intro e he
    rcases (hmem2 e).mp he with rfl | he'
    · refine ⟨c, by show c * 2 = 2 * c; ring, hprime, hodd,
        by show c ∣ c * c; exact dvd_mul_right c c,
        by show c * c % 2 = 1; rw [Nat.mul_mod, hodd],
        by show c + 2 ≤ c * c; nlinarith,
        hsq, by show c < c * c; nlinarith, by omega, hsq⟩
    · rcases hInv.entries e he' with ⟨p, h1, h2, h3p, h4, h5, _, h7, h8, h9, h10⟩
      exact ⟨p, h1, h2, h3p, h4, h5, hshift e he', h7, h8, by omega, h10⟩
  · intro q hq hqodd hqlt hqsq
    by_cases hqc : q = c
    · subst hqc
      refine Or.inl ⟨(q * q, q * 2), (hmem2 _).mpr (Or.inl rfl),
        by show q * 2 = 2 * q; ring, ?_⟩
      intro x hx1 hx2 hdvd hxodd hmf
      exact absurd (minFac_mult_lt_sq hq hdvd (by omega) hx2 hmf) not_false
    · have hqc' : q < c := by omega
      rcases hInv.covered q hq hqodd hqc' hqsq with ⟨e, he, hes, hcov⟩ | ⟨habs, hcov⟩
      · refine Or.inl ⟨e, (hmem2 e).mpr (Or.inr he), hes, ?_⟩
        intro x hx1 hx2 hdvd hxodd hmf
        rw [hasKey_insertKey]
        exact Or.inr (hcov x (by omega) hx2 hdvd hxodd hmf)
      · refine Or.inr ⟨?_, ?_⟩
        · intro e he
          rcases (hmem2 e).mp he with rfl | he'
          · show c * 2 ≠ 2 * q
            omega
          · exact habs e he'
        · intro x hx1 hx2 hdvd hxodd hmf
          rw [hasKey_insertKey]
          exact Or.inr (hcov x (by omega) hx2 hdvd hxodd hmf)

theorem odd_mult_diff {q c x : Nat} (hq : Nat.Prime q) (hqodd : q % 2 = 1)
    (hdc : q ∣ c) (hdx : q ∣ x) (hcodd : c % 2 = 1) (hxodd : x % 2 = 1)
    (hlt : c < x) : ∃ i, 1 ≤ i ∧ x = c + 2 * q * i := by
  have hd : q ∣ x - c := Nat.dvd_sub' hdx hdc
  have h2 : 2 ∣ x - c := by omega
  have hq2 : ¬ q ∣ 2 := by
    intro h
    have h1 := Nat.le_of_dvd (by norm_num) h
    have h2 := hq.two_le
    omega
  have hcop : Nat.Coprime q 2 := (Nat.Prime.coprime_iff_not_dvd hq).mpr hq2
  have hdd : q * 2 ∣ x - c := Nat.Coprime.mul_dvd_of_dvd_of_dvd hcop hd h2
  obtain ⟨i, hi⟩ := hdd
  have hx : x = c + q * 2 * i := by
    have := (Nat.sub_eq_iff_eq_add (le_of_lt hlt)).mp hi
    omega
  have hi1 : 1 ≤ i := by
    rcases Nat.eq_zero_or_pos i with rfl | h
    · simp at hx
      omega
    · exact h
  exact ⟨i, hi1, by rw [hx]; ring⟩

theorem inv_comp_step_found {M c stride slot : Nat} {m : SieveMap}
    (hInv : Inv M c m) (hodd : c % 2 = 1) (h3 : 3 ≤ c) (hcM : c ≤ M)
    (hlk : lookupKey m c = some stride)
    (hslot : findSlot M stride (eraseKey m c) (M + 2) (c + stride) = some slot) :
    Inv M (c + 2) (insertKey (eraseKey m c) slot stride) := by
  have hmem : (c, stride) ∈ m := lookupKey_some_mem hlk
  rcases hInv.entries _ hmem with ⟨q, hsq, hq, hqodd, hqdvd, _, _, _, hqlt, hqc, hqsq⟩
  simp only at hsq hqdvd hqlt
  have hq2 := hq.two_le
  have hq3 : 3 ≤ q := by omega
  rcases findSlot_some_spec hslot with ⟨j, hslotval, hslotM, hslotfree, hcovprog⟩
  have hm1mem : ∀ e, e ∈ eraseKey m c ↔ e ∈ m ∧ e.1 ≠ c := fun e => mem_eraseKey
  have hslot2 : slot = c + 2 * (q * (j + 1)) := by
    rw [hslotval, hsq]; ring
  have hslotlb : c + 2 * q ≤ slot := by
    have hnn : 0 ≤ q * j := Nat.zero_le _
    nlinarith
  have hslotodd : slot % 2 = 1 := by omega
  have hslotdvd : q ∣ slot := by
    rw [hslot2]
    exact Nat.dvd_add hqdvd (Dvd.dvd.mul_left (Nat.dvd_mul_right q (j+1)) 2)
  have hcnp : ¬ Nat.Prime c := by
    intro hcp
    rcases hcp.eq_one_or_self_of_dvd q hqdvd with h | h
    · exact hq.one_lt.ne' h
    · omega
  have hmem2 : ∀ e, e ∈ insertKey (eraseKey m c) slot stride ↔
      e = (slot, stride) ∨ (e ∈ m ∧ e.1 ≠ c) := by
    intro e
    rw [mem_insertKey]
    constructor
    · rintro (h | ⟨h, _⟩)
      · exact Or.inl h
      · exact Or.inr (mem_eraseKey.mp h)
    · rintro (h | h)
      · exact Or.inl h
      · refine Or.inr ⟨mem_eraseKey.mpr h, fun hek => ?_⟩
        rw [hasKey_false_iff] at hslotfree
        exact hslotfree e (mem_eraseKey.mpr h) hek
  have hkey2 : ∀ x, hasKey (insertKey (eraseKey m c) slot stride) x = true ↔
      x = slot ∨ (hasKey m x = true ∧ x ≠ c) := by
    intro x
    rw [hasKey_insertKey]
    constructor
    · rintro (h | h)
      · exact Or.inl h
      · exact Or.inr ((hasKey_eraseKey m c x).mp h)
    · rintro (h | h)
      · exact Or.inl h
      · exact Or.inr ((hasKey_eraseKey m c x).mpr h)
  have hstrideq : ∀ e ∈ m, e.2 = stride → e = (c, stride) :=
    fun e he hes => stride_unique hInv.wf he hmem hes
  refine ⟨?_, ?_, ?_⟩
  · unfold insertKey
    refine List.Pairwise.cons (fun e he => ?_) (pairwise_eraseKey (pairwise_eraseKey hInv.wf c) slot)
    rcases mem_eraseKey.mp he with ⟨he1, hne1⟩
    rcases mem_eraseKey.mp he1 with ⟨he2, hne2⟩
    refine ⟨fun h => hne1 h.symm, fun h => ?_⟩
    have := hstrideq e he2 h.symm
    rw [this] at hne2
    exact hne2 rfl
  · intro e he
    rcases (hmem2 e).mp he with rfl | ⟨he', hne⟩
    · exact ⟨q, hsq, hq, hqodd, hslotdvd, hslotodd, by omega, hslotM,
        by omega, by omega, hqsq⟩
    · rcases hInv.entries e he' with ⟨p, h1, h2, h3p, h4, h5, h6, h7, h8, h9, h10⟩
      exact ⟨p, h1, h2, h3p, h4, h5, by omega, h7, h8, by omega, h10⟩
  · intro r hr hrodd hrlt hrsq
    have hrc : r ≠ c := fun h => hcnp (h ▸ hr)
    have hrc' : r < c := by omega
    by_cases hrq : r = q
    · subst hrq
      refine Or.inl ⟨(slot, stride), (hmem2 _).mpr (Or.inl rfl), hsq, ?_⟩
      intro x hx1 hx2 hdvd hxodd _
      simp only at hx2
      obtain ⟨i, hi1, hxi⟩ := odd_mult_diff hr hrodd hqdvd hdvd hodd hxodd (by omega)
      obtain ⟨i', rfl⟩ : ∃ i', i = i' + 1 := ⟨i - 1, by omega⟩
      have hxprog : x = (c + stride) + stride * i' := by
        rw [hxi, hsq]; ring
      have hij : i' < j := by
        by_contra hcon
        push_neg at hcon
        rw [hslot2] at hx2
        rw [hxi] at hx2
        nlinarith
      have := hcovprog i' hij
      rw [← hxprog] at this
      rw [hkey2]
      rcases (hasKey_eraseKey m c x).mp this with ⟨hkx, hxc⟩
      exact Or.inr ⟨hkx, hxc⟩
    · rcases hInv.covered r hr hrodd hrc' hrsq with ⟨e, he, hes, hcov⟩ | ⟨habs, hcov⟩
      · have hec : e.1 ≠ c := by
          intro h
          have hne : e ≠ (c, stride) := by
            intro heq
            rw [heq] at hes
            simp only at hes
            omega
          exact (pairwise_forall_ne hInv.wf e he (c, stride) hmem hne).1 h
        refine Or.inl ⟨e, (hmem2 e).mpr (Or.inr ⟨he, hec⟩), hes, ?_⟩
        intro x hx1 hx2 hdvd hxodd hmf
        rw [hkey2]
        exact Or.inr ⟨hcov x (by omega) hx2 hdvd hxodd hmf, by omega⟩
      · refine Or.inr ⟨?_, ?_⟩
        · intro e he
          rcases (hmem2 e).mp he with rfl | ⟨he', _⟩
          · simp only
            omega
          · exact habs e he'
        · intro x hx1 hx2 hdvd hxodd hmf
          rw [hkey2]
          exact Or.inr ⟨hcov x (by omega) hx2 hdvd hxodd hmf, by omega⟩

theorem inv_comp_step_drop {M c stride : Nat} {m : SieveMap}
    (hInv : Inv M c m) (hodd : c % 2 = 1) (h3 : 3 ≤ c) (hcM : c ≤ M)
    (hlk : lookupKey m c = some stride)
    (hslot : findSlot M stride (eraseKey m c) (M + 2) (c + stride) = none) :
    Inv M (c + 2) (eraseKey m c) := by
  have hmem : (c, stride) ∈ m := lookupKey_some_mem hlk
  rcases hInv.entries _ hmem with ⟨q, hsq, hq, hqodd, hqdvd, _, _, _, hqlt, hqc, hqsq⟩
  simp only at hsq hqdvd hqlt
  have hq2 := hq.two_le
  have hs1 : 1 ≤ stride := by omega
  have hcnp : ¬ Nat.Prime c := by
    intro hcp
    rcases hcp.eq_one_or_self_of_dvd q hqdvd with h | h
    · exact hq.one_lt.ne' h
    · omega
  have hstrideq : ∀ e ∈ m, e.2 = stride → e = (c, stride) :=
    fun e he hes => stride_unique hInv.wf he hmem hes
  have hkey1 : ∀ x, hasKey (eraseKey m c) x = true ↔ hasKey m x = true ∧ x ≠ c :=
    hasKey_eraseKey m c
  refine ⟨pairwise_eraseKey hInv.wf c, ?_, ?_⟩
  · intro e he
    rcases mem_eraseKey.mp he with ⟨he', hne⟩
    rcases hInv.entries e he' with ⟨p, h1, h2, h3p, h4, h5, h6, h7, h8, h9, h10⟩
    exact ⟨p, h1, h2, h3p, h4, h5, by omega, h7, h8, by omega, h10⟩
  · intro r hr hrodd hrlt hrsq
    have hrc : r ≠ c := fun h => hcnp (h ▸ hr)
    have hrc' : r < c := by omega
    by_cases hrq : r = q
    · subst hrq
      refine Or.inr ⟨?_, ?_⟩
      · intro e he
        rcases mem_eraseKey.mp he with ⟨he', hne⟩
        intro hes
        have := hstrideq e he' (by rw [hes, hsq])
        rw [this] at hne
        exact hne rfl
      · intro x hx1 hx2 hdvd hxodd _
        obtain ⟨i, hi1, hxi⟩ := odd_mult_diff hr hrodd hqdvd hdvd hodd hxodd (by omega)
        obtain ⟨i', rfl⟩ : ∃ i', i = i' + 1 := ⟨i - 1, by omega⟩
        have hxprog : x = (c + stride) + stride * i' := by
          rw [hxi, hsq]; ring
        have := findSlot_none_spec hs1 (by omega) hslot i' (by omega)
        rw [← hxprog] at this
        exact this
    · rcases hInv.covered r hr hrodd hrc' hrsq with ⟨e, he, hes, hcov⟩ | ⟨habs, hcov⟩
      · have hec : e.1 ≠ c := by
          intro h
          have hne : e ≠ (c, stride) := by
            intro heq
            rw [heq] at hes
            simp only at hes
            omega
          exact (pairwise_forall_ne hInv.wf e he (c, stride) hmem hne).1 h
        refine Or.inl ⟨e, mem_eraseKey.mpr ⟨he, hec⟩, hes, ?_⟩
        intro x hx1 hx2 hdvd hxodd hmf
        rw [hkey1]
        exact ⟨hcov x (by omega) hx2 hdvd hxodd hmf, by omega⟩
      · refine Or.inr ⟨?_, ?_⟩
        · intro e he
          exact habs e (mem_eraseKey.mp he).1
        · intro x hx1 hx2 hdvd hxodd hmf
          rw [hkey1]
          exact ⟨hcov x (by omega) hx2 hdvd hxodd hmf, by omega⟩

theorem inv_prime_step_nofit {M c : Nat} {m : SieveMap} (hInv : Inv M c m)
    (hodd : c % 2 = 1) (h3 : 3 ≤ c) (hcM : c ≤ M) (hprime : Nat.Prime c)
    (hsq : M < c * c) :
    Inv M (c + 2) m := by
  have hnk : hasKey m c = false := inv_not_hasKey_of_prime hInv hprime
  have hshift : ∀ e ∈ m, c + 2 ≤ e.1 := inv_shift hInv hodd hnk
  refine ⟨hInv.wf, ?_, ?_⟩
  · intro e he
    rcases hInv.entries e he with ⟨p, h1, h2, h3p, h4, h5, _, h7, h8, h9, h10⟩
    exact ⟨p, h1, h2, h3p, h4, h5, hshift e he, h7, h8, by omega, h10⟩
  · intro q hq hqodd hqlt hqsq
    by_cases hqc : q = c
    · subst hqc
      omega
    · have hqc' : q < c := by omega
      rcases hInv.covered q hq hqodd hqc' hqsq with ⟨e, he, hes, hcov⟩ | ⟨habs, hcov⟩
      · exact Or.inl ⟨e, he, hes, fun x hx1 hx2 hdvd hxodd hmf =>
          hcov x (by omega) hx2 hdvd hxodd hmf⟩
      · exact Or.inr ⟨habs, fun x hx1 hx2 hdvd hxodd hmf =>
          hcov x (by omega) hx2 hdvd hxodd hmf⟩

theorem chkAdd_two_eq_encCand (M c : Nat) : chkAdd M c 2 = encCand M (c + 2) := rfl

theorem sieveLoop_zero (M : Nat) (m : SieveMap) (oc : Option Nat) :
    sieveLoop M 0 m oc = none := by
  rw [sieveLoop]

theorem sieveLoop_none (M fuel : Nat) (m : SieveMap) :
    sieveLoop M (fuel + 1) m none = none := by
  rw [sieveLoop]

theorem sieveLoop_succ_comp (M fuel c stride : Nat) (m : SieveMap)
    (hlk : lookupKey m c = some stride) :
    sieveLoop M (fuel + 1) m (some c) =
      sieveLoop M fuel
        (match findSlot M stride (eraseKey m c) (M + 2) (c + stride) with
         | some slot => insertKey (eraseKey m c) slot stride
         | none => eraseKey m c)
        (chkAdd M c 2) := by
  conv_lhs => rw [sieveLoop]
  rw [hlk]

theorem sieveLoop_succ_prime (M fuel c : Nat) (m : SieveMap)
    (hlk : lookupKey m c = none) :
    sieveLoop M (fuel + 1) m (some c) =
      some (c, ⟨match chkMul M c c with
                | some sq => insertKey m sq (c * 2)
                | none => m, chkAdd M c 2⟩) := by
  conv_lhs => rw [sieveLoop]
  rw [hlk]

theorem sieveLoop_spec (M : Nat) : ∀ fuel c m, Inv M c m → c % 2 = 1 → 3 ≤ c →
    M + 3 ≤ fuel + c →
    ((∀ p st2, sieveLoop M fuel m (encCand M c) = some (p, st2) →
       Nat.Prime p ∧ c ≤ p ∧ p ≤ M ∧ p % 2 = 1 ∧
       (∀ q, Nat.Prime q → c ≤ q → q < p → False) ∧
       st2.nextCandidate = encCand M (p + 2) ∧ Inv M (p + 2) st2.sieveMap)
    ∧ (sieveLoop M fuel m (encCand M c) = none →
       ∀ q, Nat.Prime q → c ≤ q → q ≤ M → False)) := by
  intro fuel
  induction fuel with
  | zero =>
    intro c m _ _ _ hfc
    refine ⟨fun p st2 h => ?_, fun _ q _ hcq hqM => ?_⟩
    · rw [sieveLoop_zero] at h
      cases h
    · omega
  | succ fuel ih =>
    intro c m hInv hodd h3 hfc
    by_cases hcM : c ≤ M
    · have henc : encCand M c = some c := by unfold encCand; rw [if_pos hcM]
      rw [henc]
      have hnotp1 : ∀ q, Nat.Prime q → q = c + 1 → False := by
        intro q hq hq1
        rcases Nat.Prime.eq_two_or_odd hq with h | h <;> omega
      cases hlk : lookupKey m c with
      | some stride =>
        have hck : hasKey m c = true := by
          cases hk : hasKey m c with
          | true => rfl
          | false =>
            rw [← lookupKey_none_iff] at hk
            rw [hk] at hlk
            cases hlk
        have hcnp : ¬ Nat.Prime c := inv_key_not_prime hInv hck
        rw [sieveLoop_succ_comp M fuel c stride m hlk, chkAdd_two_eq_encCand]
        have hInv2 : Inv M (c + 2)
            (match findSlot M stride (eraseKey m c) (M + 2) (c + stride) with
             | some slot => insertKey (eraseKey m c) slot stride
             | none => eraseKey m c) := by
          cases hfs : findSlot M stride (eraseKey m c) (M + 2) (c + stride) with
          | some slot => exact inv_comp_step_found hInv hodd h3 hcM hlk hfs
          | none => exact inv_comp_step_drop hInv hodd h3 hcM hlk hfs
        rcases ih (c + 2) _ hInv2 (by omega) (by omega) (by omega) with ⟨ihs, ihn⟩
        refine ⟨fun p st2 h => ?_, fun h q hq hcq hqM => ?_⟩
        · rcases ihs p st2 h with ⟨g1, g2, g3, g4, g5, g6, g7⟩
          refine ⟨g1, by omega, g3, g4, fun q hq hcq hqp => ?_, g6, g7⟩
          rcases Nat.lt_or_ge q (c + 2) with hlt | hge
          · rcases Nat.eq_or_lt_of_le hcq with rfl | hgt
            · exact hcnp hq
            · exact hnotp1 q hq (by omega)
          · exact g5 q hq hge hqp
        · rcases Nat.lt_or_ge q (c + 2) with hlt | hge
          · rcases Nat.eq_or_lt_of_le hcq with rfl | hgt
            · exact hcnp hq
            · exact hnotp1 q hq (by omega)
          · exact ihn h q hq hge hqM
      | none =>
        have hnk : hasKey m c = false := (lookupKey_none_iff m c).mp hlk
        have hcp : Nat.Prime c := by
          by_contra hnp
          rw [inv_hasKey_of_composite hInv hodd h3 hcM hnp] at hnk
          cases hnk
        rw [sieveLoop_succ_prime M fuel c m hlk]
        refine ⟨fun p st2 h => ?_, fun h => ?_⟩
        · injection h with h
          injection h with h1 h2
          subst h1
          subst h2
          refine ⟨hcp, le_refl c, hcM, hodd, fun q _ hcq hqp => by omega,
            chkAdd_two_eq_encCand M c, ?_⟩
          cases hsq : chkMul M c c with
          | some sq =>
            have hsqM : c * c ≤ M := by
              unfold chkMul at hsq
              by_cases h' : c * c ≤ M
              · exact h'
              · rw [if_neg h'] at hsq; cases hsq
            have hsqv : sq = c * c := by
              unfold chkMul at hsq
              rw [if_pos hsqM] at hsq
              injection hsq with hsq
              omega
            show Inv M (c + 2) (insertKey m sq (c * 2))
            rw [hsqv]
            exact inv_prime_step_fit hInv hodd h3 hcM hcp hsqM
          | none =>
            have hsqM : M < c * c := by
              unfold chkMul at hsq
              by_cases h' : c * c ≤ M
              · rw [if_pos h'] at hsq; cases hsq
              · omega
            show Inv M (c + 2) m
            exact inv_prime_step_nofit hInv hodd h3 hcM hcp hsqM
        · cases h
    · have henc : encCand M c = none := by unfold encCand; rw [if_neg hcM]
      rw [henc, sieveLoop_none]
      refine ⟨?_, ?_⟩
      · intro p st2 h
        cases h
      · intro _ q _ hcq hqM
        omega

/-! ### Structure of the prime lists -/

theorem primesFrom_eq_nil {c M : Nat}
    (h : ∀ q, Nat.Prime q → c ≤ q → q ≤ M → False) : primesFrom c M = [] := by
  unfold primesFrom
  rw [List.filter_eq_nil_iff]
  intro x hx
  rw [List.mem_range] at hx
  simp only [Bool.and_eq_true, decide_eq_true_eq, not_and]
  intro h1 h2
  exact h x ((isPrimeTD_iff x).mp h2) h1 (by omega)

theorem range_split (a b : Nat) (h : a ≤ b) :
    List.range b = List.range a ++ List.range' a (b - a) := by
  rw [List.range_eq_range', List.range_eq_range']
  have hap := List.range'_append_1 0 a (b - a)
  rw [Nat.zero_add] at hap
  rw [hap]
  congr 1
  omega

theorem not_prime_succ_of_odd {p : Nat} (h3 : 3 ≤ p) (hodd : p % 2 = 1) :
    isPrimeTD (p + 1) = false := by
  cases h : isPrimeTD (p + 1) with
  | false => rfl
  | true =>
    have hp := (isPrimeTD_iff _).mp h
    rcases Nat.Prime.eq_two_or_odd hp with h' | h' <;> omega

theorem primesFrom_cons {c M p : Nat} (hp : Nat.Prime p) (hcp : c ≤ p) (hpM : p ≤ M)
    (hleast : ∀ q, Nat.Prime q → c ≤ q → q < p → False) (hodd : p % 2 = 1) :
    primesFrom c M = p :: primesFrom (p + 2) M := by
  have h3 : 3 ≤ p := by
    have := hp.two_le
    omega
  have hstep1 : primesFrom c M = primesFrom p M := by
    unfold primesFrom
    apply List.filter_congr
    intro x _
    by_cases hpr : isPrimeTD x = true
    · have hxp : Nat.Prime x := (isPrimeTD_iff x).mp hpr
      by_cases hcx : c ≤ x
      · have hpx : p ≤ x := by
          by_contra hcon
          exact hleast x hxp hcx (by omega)
        simp [hcx, hpx]
      · have hnpx : ¬ p ≤ x := by omega
        simp [hcx, hnpx]
    · have hf : isPrimeTD x = false := by
        cases hv : isPrimeTD x with
        | false => rfl
        | true => exact absurd hv hpr
      simp [hf]
  have hm1 : M + 1 - p = (M - p) + 1 := by omega
  have hm2 : M + 1 - (p + 1) = M - p := by omega
  have hrhs : primesFrom (p + 2) M =
      List.filter (fun x => decide (p + 2 ≤ x) && isPrimeTD x)
        (List.range' (p + 1) (M - p)) := by
    unfold primesFrom
    rw [range_split (p + 1) (M + 1) (by omega), List.filter_append, hm2]
    have hleft2 : List.filter (fun x => decide (p + 2 ≤ x) && isPrimeTD x)
        (List.range (p + 1)) = [] := by
      rw [List.filter_eq_nil_iff]
      intro x hx
      rw [List.mem_range] at hx
      simp only [Bool.and_eq_true, decide_eq_true_eq, not_and]
      intro h1
      omega
    rw [hleft2]
    rfl
  rw [hstep1, hrhs]
  unfold primesFrom
  rw [range_split p (M + 1) (by omega), List.filter_append, hm1, List.range'_succ]
  have hleft1 : List.filter (fun x => decide (p ≤ x) && isPrimeTD x) (List.range p) = [] := by
    rw [List.filter_eq_nil_iff]
    intro x hx
    rw [List.mem_range] at hx
    simp only [Bool.and_eq_true, decide_eq_true_eq, not_and]
    intro h1
    omega
  rw [hleft1]
  have hhead : List.filter (fun x => decide (p ≤ x) && isPrimeTD x)
      (p :: List.range' (p + 1) (M - p)) =
      p :: List.filter (fun x => decide (p ≤ x) && isPrimeTD x)
        (List.range' (p + 1) (M - p)) := by
    rw [List.filter_cons]
    have hpt : (decide (p ≤ p) && isPrimeTD p) = true := by
      rw [Bool.and_eq_true, decide_eq_true_eq]
      exact ⟨le_refl p, (isPrimeTD_iff p).mpr hp⟩
    rw [if_pos hpt]
  rw [hhead]
  have htail : List.filter (fun x => decide (p ≤ x) && isPrimeTD x)
      (List.range' (p + 1) (M - p)) =
      List.filter (fun x => decide (p + 2 ≤ x) && isPrimeTD x)
        (List.range' (p + 1) (M - p)) := by
    apply List.filter_congr
    intro x hx
    rw [List.mem_range'_1] at hx
    rcases Nat.eq_or_lt_of_le hx.1 with rfl | hgt
    · rw [not_prime_succ_of_odd h3 hodd]
      simp
    · have ha : p ≤ x := by omega
      have hb : p + 2 ≤ x := by omega
      simp [ha, hb]
  rw [htail]
  simp

theorem primesUpTo_eq_cons {M : Nat} (h2 : 2 ≤ M) :
    primesUpTo M = 2 :: primesFrom 3 M := by
  have hm1 : M + 1 - 2 = (M - 2) + 1 := by omega
  have hm2 : M + 1 - 3 = M - 2 := by omega
  have hrhs : primesFrom 3 M =
      List.filter (fun x => decide (3 ≤ x) && isPrimeTD x)
        (List.range' 3 (M - 2)) := by
    unfold primesFrom
    rw [range_split 3 (M + 1) (by omega), List.filter_append, hm2]
    have hleft2 : List.filter (fun x => decide (3 ≤ x) && isPrimeTD x)
        (List.range 3) = [] := by decide
    rw [hleft2]
    rfl
  rw [hrhs]
  unfold primesUpTo
  rw [range_split 2 (M + 1) (by omega), List.filter_append, hm1, List.range'_succ]
  have hleft1 : List.filter isPrimeTD (List.range 2) = [] := by decide
  rw [hleft1]
  have hhead : List.filter isPrimeTD (2 :: List.range' 3 (M - 2)) =
      2 :: List.filter isPrimeTD (List.range' 3 (M - 2)) := by
    rw [List.filter_cons]
    have : isPrimeTD 2 = true := by decide
    rw [if_pos this]
  rw [hhead]
  have htail : List.filter isPrimeTD (List.range' 3 (M - 2)) =
      List.filter (fun x => decide (3 ≤ x) && isPrimeTD x)
        (List.range' 3 (M - 2)) := by
    apply List.filter_congr
    intro x hx
    rw [List.mem_range'_1] at hx
    have h3 : 3 ≤ x := hx.1
    simp [h3]
  rw [htail]
  simp

theorem primesUpTo_eq_nil {M : Nat} (h : M < 2) : primesUpTo M = [] := by
  interval_cases M <;> decide

/-! ### The main sieve theorem -/

theorem sieveList_inv (M : Nat) : ∀ f c m, Inv M c m → c % 2 = 1 → 3 ≤ c →
    sieveList M f ⟨m, encCand M c⟩ = (primesFrom c M).take f := by
  intro f
  induction f with
  | zero =>
    intro c m _ _ _
    rfl
  | succ f ih =>
    intro c m hInv hodd h3
    rw [sieveList]
    by_cases hcM : c ≤ M
    · have henc : encCand M c = some c := by unfold encCand; rw [if_pos hcM]
      have hne2 : ¬ (c = 2) := by omega
      have hnext : sieveNext M ⟨m, encCand M c⟩ = sieveLoop M (M + 2) m (encCand M c) := by
        show (match encCand M c with
          | none => none
          | some curr => if curr = 2 then
              some (2, (⟨m, if 3 ≤ M then some 3 else none⟩ : SieveState))
              else sieveLoop M (M + 2) m (encCand M c)) = _
        rw [henc]
        show (if c = 2 then
            some (2, (⟨m, if 3 ≤ M then some 3 else none⟩ : SieveState))
            else sieveLoop M (M + 2) m (some c)) = _
        rw [if_neg hne2]
      rw [hnext]
      rcases sieveLoop_spec M (M + 2) c m hInv hodd h3 (by omega) with ⟨hs, hn⟩
      cases hloop : sieveLoop M (M + 2) m (encCand M c) with
      | none =>
        rw [primesFrom_eq_nil (hn hloop)]
        rfl
      | some pst =>
        obtain ⟨p, st2⟩ := pst
        obtain ⟨m2, nc2⟩ := st2
        rcases hs p ⟨m2, nc2⟩ hloop with ⟨g1, g2, g3, g4, g5, g6, g7⟩
        have g6' : nc2 = encCand M (p + 2) := g6
        have g7' : Inv M (p + 2) m2 := g7
        subst g6'
        rw [primesFrom_cons g1 g2 g3 g5 g4, List.take_succ_cons]
        show p :: sieveList M f ⟨m2, encCand M (p + 2)⟩ =
          p :: List.take f (primesFrom (p + 2) M)
        congr 1
        exact ih (p + 2) m2 g7' (by omega) (by omega)
    · have henc : encCand M c = none := by unfold encCand; rw [if_neg hcM]
      have hnil : primesFrom c M = [] := by
        apply primesFrom_eq_nil
        intro q _ hcq hqM
        omega
      rw [henc, hnil]
      rfl

/-- The streaming prime generator, instantiated at any fixed-width integer
type with maximum value `M`, produces exactly the ascending list of primes
`≤ M`:  `f` calls of `next` yield the first `f` entries of that list, the
sequence ending (with a plain `none`, no error) once it is exhausted. -/
theorem generate_primes_spec (M f : Nat) :
    sieveList M f (initState M) = (primesUpTo M).take f := by
  by_cases h2 : 2 ≤ M
  · have hinit : initState M = ⟨[], some 2⟩ := by unfold initState; rw [if_pos h2]
    rw [hinit]
    cases f with
    | zero => rfl
    | succ f =>
      rw [sieveList]
      have hnext : sieveNext M ⟨[], some 2⟩ = some (2, ⟨[], encCand M 3⟩) := by
        show (match (some 2 : Option Nat) with
          | none => none
          | some curr => if curr = 2 then some (2, (⟨[], if 3 ≤ M then some 3 else none⟩ : SieveState))
              else sieveLoop M (M + 2) [] (some 2)) = _
        rfl
      rw [hnext]
      rw [primesUpTo_eq_cons h2, List.take_succ_cons]
      show 2 :: sieveList M f ⟨[], encCand M 3⟩ = 2 :: List.take f (primesFrom 3 M)
      congr 1
      have hInv3 : Inv M 3 [] := by
        refine ⟨List.Pairwise.nil, ?_, ?_⟩
        · intro e he
          cases he
        · intro p hp hpodd hplt _
          have := hp.two_le
          omega
      exact sieveList_inv M f 3 [] hInv3 rfl (by omega)
  · have hinit : initState M = ⟨[], none⟩ := by unfold initState; rw [if_neg h2]
    rw [hinit, primesUpTo_eq_nil (by omega)]
    cases f with
    | zero => rfl
    | succ f =>
      rw [sieveList]
      rfl

theorem mem_primesUpTo (M p : Nat) : p ∈ primesUpTo M ↔ Nat.Prime p ∧ p ≤ M := by
  unfold primesUpTo
  rw [List.mem_filter, List.mem_range, isPrimeTD_iff]
  constructor
  · rintro ⟨h1, h2⟩
    exact ⟨h2, by omega⟩
  · rintro ⟨h1, h2⟩
    exact ⟨by omega, h1⟩

theorem primesUpTo_sorted (M : Nat) : List.Pairwise (· < ·) (primesUpTo M) :=
  List.Pairwise.filter _ (List.pairwise_lt_range (M + 1))

/-- C3: for every fixed-width integer type (modelled by its maximum value
`M`), the streaming generator is a lazy strictly increasing sequence that
contains exactly the primes representable in the type, starts at 2, and,
once the candidate counter would overflow, simply ends (the iterator
returns `none`, a normal end-of-sequence, never an error value; an
overflowing square `c*c` merely skips the map insertion, which is part of
the `sieveList` equations proved here). -/
theorem prime_iter_contract (M : Nat) :
    (∀ f, sieveList M f (initState M) = (primesUpTo M).take f) ∧
    List.Pairwise (· < ·) (primesUpTo M) ∧
    (∀ p, p ∈ primesUpTo M ↔ Nat.Prime p ∧ p ≤ M) ∧
    (2 ≤ M → (primesUpTo M).take 1 = [2]) ∧
    (∀ f, (primesUpTo M).length ≤ f → sieveList M f (initState M) = primesUpTo M) := by
  refine ⟨fun f => generate_primes_spec M f, primesUpTo_sorted M, mem_primesUpTo M, ?_, ?_⟩
  · intro h2
    rw [primesUpTo_eq_cons h2]
    rfl
  · intro f hf
    rw [generate_primes_spec M f]
    exact List.take_of_length_le hf

theorem prime_iter_contract_witness :
    (primesUpTo 10).take 1 = [2] ∧ sieveList 10 9 (initState 10) = primesUpTo 10 :=
  ⟨(prime_iter_contract 10).2.2.2.1 (by decide),
   (prime_iter_contract 10).2.2.2.2 9 (by decide)⟩

/-- C4 (counterexample): instantiated at `u8` (maximum value 255), the
generator does **not** stop after 127: its 32nd output is 131, so the
claimed 31-element list is not the whole `u8` sequence. -/
theorem generate_primes_u8_counterexample :
    sieveList 255 32 (initState 255) =
      [2, 3, 5, 7, 11, 13, 17, 19, 23, 29, 31, 37, 41, 43, 47, 53, 59, 61,
       67, 71, 73, 79, 83, 89, 97, 101, 103, 107, 109, 113, 127] ++ [131] ∧
    sieveList 255 32 (initState 255) ≠
      [2, 3, 5, 7, 11, 13, 17, 19, 23, 29, 31, 37, 41, 43, 47, 53, 59, 61,
       67, 71, 73, 79, 83, 89, 97, 101, 103, 107, 109, 113, 127] := by
  constructor
  · decide
  · decide

/-- C4 (amended): it is the signed 8-bit type `i8` (maximum value 127) —
the instantiation the repository's own test uses — whose generator
produces exactly `[2, …, 127]` and then terminates: 40 pulls already
return only these 31 primes. -/
theorem generate_primes_i8 :
    sieveList 127 40 (initState 127) =
      [2, 3, 5, 7, 11, 13, 17, 19, 23, 29, 31, 37, 41, 43, 47, 53, 59, 61,
       67, 71, 73, 79, 83, 89, 97, 101, 103, 107, 109, 113, 127] := by
  decide

theorem sieveLoop_prime_insert (M : Nat) : ∀ fuel m oc p st2,
    sieveLoop M fuel m oc = some (p, st2) → p * p ≤ M →
    (p * p, p * 2) ∈ st2.sieveMap := by
  intro fuel
  induction fuel with
  | zero =>
    intro m oc p st2 h
    rw [sieveLoop_zero] at h
    cases h
  | succ fuel ih =>
    intro m oc p st2 h hsq
    cases oc with
    | none => rw [sieveLoop_none] at h; cases h
    | some curr =>
      cases hlk : lookupKey m curr with
      | some stride =>
        rw [sieveLoop_succ_comp M fuel curr stride m hlk] at h
        exact ih _ _ p st2 h hsq
      | none =>
        rw [sieveLoop_succ_prime M fuel curr m hlk] at h
        injection h with h
        injection h with h1 h2
        subst h1
        have hm : chkMul M curr curr = some (curr * curr) := by
          unfold chkMul
          rw [if_pos hsq]
        rw [← h2]
        show (curr * curr, curr * 2) ∈ (match chkMul M curr curr with
          | some sq => insertKey m sq (curr * 2)
          | none => m)
        rw [hm]
        exact mem_insertKey.mpr (Or.inl rfl)

/-- C10: whenever `next` yields an odd prime `curr ≥ 3` whose square passed
the `checked_mul` guard (`curr*curr ≤ M`), the unchecked stride `curr * 2`
also fits the type (since `2*curr < curr*curr` for `curr ≥ 3`), and the
entry `curr² ↦ 2·curr` really is inserted into the sieve map. -/
theorem sieve_stride_no_overflow (M : Nat) (st : SieveState) (p : Nat)
    (st2 : SieveState) (h : sieveNext M st = some (p, st2)) (h3 : 3 ≤ p)
    (hsq : p * p ≤ M) :
    p * 2 ≤ M ∧ (p * p, p * 2) ∈ st2.sieveMap := by
  have hfit : p * 2 ≤ M := by nlinarith
  refine ⟨hfit, ?_⟩
  unfold sieveNext at h
  cases hnc : st.nextCandidate with
  | none => rw [hnc] at h; cases h
  | some curr =>
    rw [hnc] at h
    have h' : (if curr = 2 then
        some (2, (⟨st.sieveMap, if 3 ≤ M then some 3 else none⟩ : SieveState))
        else sieveLoop M (M + 2) st.sieveMap (some curr)) = some (p, st2) := h
    by_cases hc2 : curr = 2
    · rw [if_pos hc2] at h'
      injection h' with h'
      injection h' with h1 _
      omega
    · rw [if_neg hc2] at h'
      exact sieveLoop_prime_insert M (M + 2) st.sieveMap (some curr) p st2 h' hsq

theorem sieve_stride_no_overflow_witness :
    3 * 2 ≤ 255 ∧ (3 * 3, 3 * 2) ∈ (⟨[(9, 6)], some 5⟩ : SieveState).sieveMap :=
  sieve_stride_no_overflow 255 ⟨[], some 3⟩ 3 ⟨[(9, 6)], some 5⟩ rfl
    (by decide) (by decide)

/-!
## Embedding of crate `next-prime`

Two source files define a `WheelSieve`: `src/lib.rs` (used by `find`) and
`src/wheel_sieve.rs`.  The structures and the `Iterator::next`
implementations are textually identical, so they share one embedding;
`primorial`, the `diffs` computation and the index search in `iter` differ
and are embedded separately (`NextPrime` for `lib.rs`, `WheelSieveRs` for
`wheel_sieve.rs`).  `usize` is 64-bit; `BigUint` values are `Nat`.
-/

/-- Maximum value of `usize` (64-bit). -/
def usizeMax : Nat := 2 ^ 64 - 1

/-- The `WheelSieve { size, residues, diffs }` structure (identical in both
files). -/
structure WheelSieve where
  size : Nat
  residues : List Nat
  diffs : List Nat

/-- The `WheelSieveIter` cursor (identical in both files); the shared
`Arc<WheelSieve>` is passed separately. -/
structure WheelSieveIter where
  index : Nat
  next_value : Nat

/-- `<WheelSieveIter as Iterator>::next` (textually identical in both
files): yield `next_value`, advance by `diffs[index]`, step the index
cyclically.  (For an order-0 wheel `diffs` is empty and Rust's
`% diffs.len()` would panic; such an iterator is never constructed — see
`iter` below, which models that panic as `none`.) -/
def wheelNext (w : WheelSieve) (st : WheelSieveIter) : Nat × WheelSieveIter :=
  (st.next_value,
   ⟨(st.index + 1) % w.diffs.length, st.next_value + w.diffs.getD st.index 0⟩)

/-- The first `n` outputs of the cursor. -/
def wheelOutputs (w : WheelSieve) : Nat → WheelSieveIter → List Nat
  | 0, _ => []
  | n+1, st => (wheelNext w st).1 :: wheelOutputs w n (wheelNext w st).2

namespace NextPrime

/-- One step of the unchecked `usize` product (`Mul::mul` with overflow
checks disabled wraps modulo `2^64`). -/
def wrapMulStep (a p : Nat) : Nat := a * p % 2 ^ 64

/-- `primorial(n)` of `lib.rs`:
`prime_iter::new::<usize>().take(n).product()`.  The `usize` product is
unchecked, so with overflow checks disabled Rust wraps modulo `2^64`,
which the fold models (with debug assertions the overflowing multiply
panics instead — that behaviour is `WheelSieveRs.primorial`).  The doc
comment of the source itself warns: overflow may occur for large `n`. -/
def primorial (n : Nat) : Nat :=
  (sieveList usizeMax n (initState usizeMax)).foldl wrapMulStep 1

/-- Body of `WheelSieve::new` of `lib.rs` as a function of the computed
`size`: `residues = (1..size).filter(|x| x.gcd(size) == 1)`,
`diffs[i] = (size + residues[(i+1) % len] - residues[i]) % size`.
(`size + r` never overflows `usize` for any size the construction can
actually produce, so plain `Nat` arithmetic is faithful.) -/
def wheelOfSize (size : Nat) : WheelSieve :=
  let residues := (List.range' 1 (size - 1)).filter (fun x => Nat.gcd x size == 1)
  let diffs := (List.range residues.length).map
    (fun i => (size + residues.getD ((i + 1) % residues.length) 0
               - residues.getD i 0) % size)
  ⟨size, residues, diffs⟩

/-- `WheelSieve::new(wheel_prime_count)` of `lib.rs`. -/
def new (wheel_prime_count : Nat) : WheelSieve :=
  wheelOfSize (primorial wheel_prime_count)

/-- `WheelSieve::iter(start)` of `lib.rs`:
`remainder = start % size` (a `usize`, always representable);
`index = (0..len).find(|i| remainder <= residues[i]).unwrap_or(0)`;
`next_value = start + (residues[index] + size - remainder) % size`.
The subsequent `residues[index]` indexing panics when `residues` is empty
(wheel order 0); the panic is modelled by `none`. -/
def iter (w : WheelSieve) (start : Nat) : Option WheelSieveIter :=
  let remainder := start % w.size
  match (List.range w.residues.length).find?
      (fun i => decide (remainder ≤ w.residues.getD i 0)) with
  | some i => some ⟨i, start + (w.residues.getD i 0 + w.size - remainder) % w.size⟩
  | none =>
    if w.residues.length = 0 then none
    else some ⟨0, start + (w.residues.getD 0 0 + w.size - remainder) % w.size⟩

/-- `WHEEL_PRIME_COUNT`. -/
def WHEEL_PRIME_COUNT : Nat := 4

/-- `WHEEL_SIEVE_210` (the lazily built shared wheel). -/
def WHEEL_SIEVE_210 : WheelSieve := new WHEEL_PRIME_COUNT

/-- The `Iterator::find` scan inside `next_prime::find`, with explicit
fuel for the unbounded loop (each theorem supplies a provably sufficient
fuel). -/
def findAux (w : WheelSieve) (pred : Nat → Bool) : Nat → WheelSieveIter → Option Nat
  | 0, _ => none
  | fuel+1, st =>
    if pred (wheelNext w st).1 then some (wheelNext w st).1
    else findAux w pred fuel (wheelNext w st).2

/-- `next_prime::find(n, is_prime)`: scan `WHEEL_SIEVE_210.iter(n + 1)`
for the first accepted candidate. -/
def find (n : Nat) (pred : Nat → Bool) (fuel : Nat) : Option Nat :=
  match iter WHEEL_SIEVE_210 (n + 1) with
  | some st => findAux WHEEL_SIEVE_210 pred fuel st
  | none => none

end NextPrime

namespace WheelSieveRs

/-- One step of `|acc, p| acc.checked_mul(p).expect("overflow")`: the
panic is `none` and propagates. -/
def checkedMulStep (acc : Option Nat) (p : Nat) : Option Nat :=
  match acc with
  | some a => if a * p ≤ usizeMax then some (a * p) else none
  | none => none

/-- `primorial(n)` of `wheel_sieve.rs`:
`prime_iter::new::<usize>().take(n).fold(1, |acc, p| acc.checked_mul(p).expect("overflow"))`.
`none` models the `expect` panic, which aborts construction. -/
def primorial (n : Nat) : Option Nat :=
  (sieveList usizeMax n (initState usizeMax)).foldl checkedMulStep (some 1)

/-- `itertools::circular_tuple_windows::<(_, _)>`: the `len` cyclically
adjacent pairs. -/
def circularPairs (l : List Nat) : List (Nat × Nat) :=
  (List.range l.length).map (fun i => (l.getD i 0, l.getD ((i + 1) % l.length) 0))

/-- `WheelSieve::new` of `wheel_sieve.rs` (aborts — `none` — when
`primorial` overflows). -/
def new (wheel_prime_count : Nat) : Option WheelSieve :=
  match primorial wheel_prime_count with
  | none => none
  | some size =>
    let residues := (List.range' 1 (size - 1)).filter (fun x => Nat.gcd x size == 1)
    let diffs := (circularPairs residues).map (fun ab => (size + ab.2 - ab.1) % size)
    some ⟨size, residues, diffs⟩

/-- `WheelSieve::iter` of `wheel_sieve.rs` (`position` instead of the
index scan of `lib.rs`; it also panics — `none` — on an empty wheel). -/
def iter (w : WheelSieve) (start : Nat) : Option WheelSieveIter :=
  let remainder := start % w.size
  match w.residues.findIdx? (fun r => decide (remainder ≤ r)) with
  | some i => some ⟨i, start + (w.residues.getD i 0 + w.size - remainder) % w.size⟩
  | none =>
    if w.residues.length = 0 then none
    else some ⟨0, start + (w.residues.getD 0 0 + w.size - remainder) % w.size⟩

end WheelSieveRs

/-- C5: a wheel of order 3 (modulus 30) iterated from start 0 yields
`[1, 7, 11, 13, 17, 19, 23, 29, 31, 37]` as its first ten candidates, and
a wheel of order 4 (modulus 210) yields `[1, 11, 13, 17, 19, 23, 29, 31,
37, 41]`. -/
theorem wheel_first_candidates :
    (NextPrime.iter (NextPrime.new 3) 0).map
        (fun st => wheelOutputs (NextPrime.new 3) 10 st) =
      some [1, 7, 11, 13, 17, 19, 23, 29, 31, 37] ∧
    (NextPrime.iter (NextPrime.new 4) 0).map
        (fun st => wheelOutputs (NextPrime.new 4) 10 st) =
      some [1, 11, 13, 17, 19, 23, 29, 31, 37, 41] := by
  constructor
  · decide
  · decide

/-- C6 (counterexample): a wheel of order 1 (modulus 2, residues `[1]`,
diffs `[0]`) started at 0 outputs the value 1 twice in a row — two
consecutive outputs are equal, so the produced sequence is not strictly
increasing. -/
theorem wheel_order_one_counterexample :
    (NextPrime.iter (NextPrime.new 1) 0).map
        (fun st => wheelOutputs (NextPrime.new 1) 2 st) = some [1, 1] := by
  decide

/-- C7 (counterexample): the `lib.rs` primorial is an unchecked
`product()`.  With overflow checks disabled (Rust's release profile)
order 16 wraps modulo `2^64` to `14142414403480493114` instead of the true
primorial `p15# * 53 = 32589158477190044730`, and `WheelSieve::new(16)`
builds a wheel with that garbage modulus — construction neither aborts nor
reports a failure on this path. -/
theorem wheel_overflow_counterexample :
    NextPrime.primorial 16 = 14142414403480493114 ∧
    (NextPrime.new 16).size = 14142414403480493114 ∧
    NextPrime.primorial 15 * 53 = 32589158477190044730 ∧
    NextPrime.primorial 16 ≠ NextPrime.primorial 15 * 53 := by
  refine ⟨by decide, by decide, by decide, by decide⟩

theorem checkedFold_none (L : List Nat) : L.foldl WheelSieveRs.checkedMulStep none = none := by
  induction L with
  | nil => rfl
  | cons p L ih =>
    rw [List.foldl_cons]
    exact ih

/-- C7 (amended): the `wheel_sieve.rs` construction — whose `primorial`
uses `checked_mul(..).expect("overflow")` — is the one for which an
overflowing order is a fatal construction-time error: every order `k ≥ 16`
panics before any wheel is produced, while order 15 (the largest whose
primorial fits a 64-bit `usize`) still succeeds.  The `lib.rs`
construction only behaves this way under debug assertions; with overflow
checks disabled it wraps (see the counterexample). -/
theorem wheel_overflow_aborts :
    WheelSieveRs.new 16 = none ∧
    (∀ k, 16 ≤ k → WheelSieveRs.primorial k = none) ∧
    WheelSieveRs.primorial 15 = some 614889782588491410 := by
  have hgen : ∀ k, 16 ≤ k → WheelSieveRs.primorial k = none := by
    intro k hk
    unfold WheelSieveRs.primorial
    rw [generate_primes_spec]
    have hsplit : (primesUpTo usizeMax).take k =
        (primesUpTo usizeMax).take 16 ++ ((primesUpTo usizeMax).drop 16).take (k - 16) := by
      rw [← List.take_add]
      congr 1
      omega
    rw [hsplit, List.foldl_append]
    have h16 : (primesUpTo usizeMax).take 16 = sieveList usizeMax 16 (initState usizeMax) :=
      (generate_primes_spec usizeMax 16).symm
    rw [h16]
    have hval : (sieveList usizeMax 16 (initState usizeMax)).foldl
        WheelSieveRs.checkedMulStep (some 1) = none := by decide
    rw [hval]
    exact checkedFold_none _
  refine ⟨?_, hgen, by decide⟩
  show (match WheelSieveRs.primorial 16 with
    | none => none
    | some size => some (WheelSieve.mk size
        ((List.range' 1 (size - 1)).filter (fun x => Nat.gcd x size == 1))
        ((WheelSieveRs.circularPairs
            ((List.range' 1 (size - 1)).filter (fun x => Nat.gcd x size == 1))).map
          (fun ab => (size + ab.2 - ab.1) % size)))) = none
  rw [hgen 16 (le_refl 16)]

theorem wheel_overflow_aborts_witness : WheelSieveRs.primorial 17 = none :=
  wheel_overflow_aborts.2.1 17 (by norm_num)

/-! ### C9: the two `WheelSieve` implementations agree -/

theorem findIdx?_as_range (q : Nat → Bool) : ∀ (l : List Nat),
    l.findIdx? q = (List.range l.length).find? (fun i => q (l.getD i 0)) := by
  intro l
  induction l with
  | nil => rfl
  | cons a l ih =>
    rw [List.findIdx?_cons, List.findIdx?_succ, List.length_cons,
      List.range_succ_eq_map]
    by_cases hq : q a
    · rw [if_pos hq]
      exact (@List.find?_cons_of_pos Nat (fun i => q ((a :: l).getD i 0)) 0
        (List.map Nat.succ (List.range l.length)) (by exact hq)).symm
    · rw [if_neg hq,
        @List.find?_cons_of_neg Nat (fun i => q ((a :: l).getD i 0)) 0
          (List.map Nat.succ (List.range l.length)) (by exact hq),
        List.find?_map]
      have hcomp : ((fun i => q ((a :: l).getD i 0)) ∘ Nat.succ) =
          (fun i => q (l.getD i 0)) := by
        funext i
        rfl
      rw [hcomp, ← ih]

theorem checkedFold_agree : ∀ (L : List Nat) (a s : Nat), a ≤ usizeMax →
    L.foldl WheelSieveRs.checkedMulStep (some a) = some s →
    L.foldl NextPrime.wrapMulStep a = s ∧ s ≤ usizeMax := by
  intro L
  induction L with
  | nil =>
    intro a s ha h
    simp only [List.foldl_nil] at h ⊢
    injection h with h
    subst h
    exact ⟨rfl, ha⟩
  | cons p L ih =>
    intro a s ha h
    rw [List.foldl_cons] at h ⊢
    simp only [WheelSieveRs.checkedMulStep] at h
    by_cases hm : a * p ≤ usizeMax
    · rw [if_pos hm] at h
      have hstep : NextPrime.wrapMulStep a p = a * p := by
        unfold NextPrime.wrapMulStep
        apply Nat.mod_eq_of_lt
        unfold usizeMax at hm
        omega
      rw [hstep]
      exact ih (a * p) s hm h
    · rw [if_neg hm] at h
      rw [checkedFold_none] at h
      cases h

theorem iter_impls_agree (w : WheelSieve) (start : Nat) :
    WheelSieveRs.iter w start = NextPrime.iter w start := by
  unfold WheelSieveRs.iter NextPrime.iter
  simp only [findIdx?_as_range]

theorem diffs_agree (size : Nat) (l : List Nat) :
    (WheelSieveRs.circularPairs l).map (fun ab => (size + ab.2 - ab.1) % size) =
      (List.range l.length).map
        (fun i => (size + l.getD ((i + 1) % l.length) 0 - l.getD i 0) % size) := by
  unfold WheelSieveRs.circularPairs
  rw [List.map_map]
  rfl

/-- C9: for every wheel order `k` whose primorial fits `usize`, the two
`WheelSieve` implementations are observationally equivalent: the `lib.rs`
unchecked product equals the checked product of `wheel_sieve.rs`, the two
constructions build identical `(size, residues, diffs)` triples, and for
every start value the two `iter` initialisations build identical cursors
(their `next` implementations are textually identical — shared `wheelNext`
— so the candidate streams coincide as well). -/
theorem wheel_impls_equivalent : ∀ k s, WheelSieveRs.primorial k = some s →
    NextPrime.primorial k = s ∧
    WheelSieveRs.new k = some (NextPrime.new k) ∧
    ∀ start, WheelSieveRs.iter (NextPrime.new k) start =
      NextPrime.iter (NextPrime.new k) start := by
  intro k s h
  have hagree := checkedFold_agree _ 1 s (by unfold usizeMax; omega) h
  have hp : NextPrime.primorial k = s := hagree.1
  refine ⟨hp, ?_, fun start => iter_impls_agree _ start⟩
  have hnew : NextPrime.new k = NextPrime.wheelOfSize s := by
    unfold NextPrime.new
    rw [hp]
  show (match WheelSieveRs.primorial k with
    | none => none
    | some size => some (WheelSieve.mk size
        ((List.range' 1 (size - 1)).filter (fun x => Nat.gcd x size == 1))
        ((WheelSieveRs.circularPairs
            ((List.range' 1 (size - 1)).filter (fun x => Nat.gcd x size == 1))).map
          (fun ab => (size + ab.2 - ab.1) % size)))) = some (NextPrime.new k)
  rw [h, hnew]
  have hmk : (WheelSieve.mk s
      ((List.range' 1 (s - 1)).filter (fun x => Nat.gcd x s == 1))
      ((WheelSieveRs.circularPairs
          ((List.range' 1 (s - 1)).filter (fun x => Nat.gcd x s == 1))).map
        (fun ab => (s + ab.2 - ab.1) % s))) = NextPrime.wheelOfSize s := by
    rw [diffs_agree]
    rfl
  exact congrArg some hmk

/-! ### General wheel-cursor invariants (any modulus `s ≥ 3`) -/

/-- The residue list computed by both constructions for modulus `s`. -/
def res (s : Nat) : List Nat :=
  (List.range' 1 (s - 1)).filter (fun x => Nat.gcd x s == 1)

theorem wheelOfSize_residues (s : Nat) : (NextPrime.wheelOfSize s).residues = res s := rfl

theorem wheelOfSize_size (s : Nat) : (NextPrime.wheelOfSize s).size = s := rfl

theorem getD_eq_elem {l : List Nat} {i : Nat} (h : i < l.length) :
    l.getD i 0 = l[i] := by
  rw [List.getD_eq_getElem?_getD, List.getElem?_eq_getElem h]
  rfl

theorem wheelOfSize_diffs_length (s : Nat) :
    (NextPrime.wheelOfSize s).diffs.length = (res s).length := by
  show ((List.range (res s).length).map _).length = _
  rw [List.length_map, List.length_range]

theorem wheelOfSize_diffs_getD {s i : Nat} (h : i < (res s).length) :
    (NextPrime.wheelOfSize s).diffs.getD i 0 =
      (s + (res s).getD ((i + 1) % (res s).length) 0 - (res s).getD i 0) % s := by
  show ((List.range (res s).length).map _).getD i 0 = _
  rw [List.getD_eq_getElem?_getD, List.getElem?_map, List.getElem?_range h]
  rfl

theorem mem_res_iff {s x : Nat} (hs : 1 ≤ s) :
    x ∈ res s ↔ 1 ≤ x ∧ x < s ∧ Nat.gcd x s = 1 := by
  unfold res
  rw [List.mem_filter, List.mem_range'_1]
  constructor
  · rintro ⟨⟨h1, h2⟩, h3⟩
    exact ⟨h1, by omega, by simpa using h3⟩
  · rintro ⟨h1, h2, h3⟩
    exact ⟨⟨h1, by omega⟩, by simpa using h3⟩

theorem res_sorted (s : Nat) : List.Pairwise (· < ·) (res s) :=
  List.Pairwise.filter _ (List.pairwise_lt_range' 1 (s - 1))

theorem one_mem_res {s : Nat} (hs : 2 ≤ s) : 1 ∈ res s := by
  rw [mem_res_iff (by omega)]
  exact ⟨le_refl 1, by omega, Nat.gcd_one_left s⟩

theorem sub_one_mem_res {s : Nat} (hs : 3 ≤ s) : s - 1 ∈ res s := by
  rw [mem_res_iff (by omega)]
  refine ⟨by omega, by omega, ?_⟩
  rw [Nat.gcd_self_sub_left (by omega)]
  exact Nat.gcd_one_left s

theorem res_len_two {s : Nat} (hs : 3 ≤ s) : 2 ≤ (res s).length := by
  have h1 := one_mem_res (s := s) (by omega)
  have h2 := sub_one_mem_res hs
  rcases hl : res s with _ | ⟨a, _ | ⟨b, l⟩⟩
  · rw [hl] at h1
    cases h1
  · rw [hl] at h1 h2
    simp at h1 h2
    omega
  · simp

theorem res_getD_mem {s i : Nat} (h : i < (res s).length) :
    (res s).getD i 0 ∈ res s := by
  rw [getD_eq_elem h]
  exact List.getElem_mem h

theorem res_getD_lt {s i j : Nat} (hij : i < j) (hj : j < (res s).length) :
    (res s).getD i 0 < (res s).getD j 0 := by
  have h := List.pairwise_iff_getElem.mp (res_sorted s) i j (by omega) hj hij
  rw [getD_eq_elem (by omega : i < (res s).length), getD_eq_elem hj]
  exact h

theorem res_getD_le {s i j : Nat} (hij : i ≤ j) (hj : j < (res s).length) :
    (res s).getD i 0 ≤ (res s).getD j 0 := by
  rcases Nat.eq_or_lt_of_le hij with rfl | h
  · exact le_refl _
  · exact le_of_lt (res_getD_lt h hj)

theorem wheel_diff_spec {s i : Nat} (hs : 3 ≤ s) (hi : i < (res s).length) :
    1 ≤ (NextPrime.wheelOfSize s).diffs.getD i 0 ∧
    ((res s).getD i 0 + (NextPrime.wheelOfSize s).diffs.getD i 0) % s =
      (res s).getD ((i + 1) % (res s).length) 0 := by
  have hn := res_len_two hs
  rw [wheelOfSize_diffs_getD hi]
  have hjlt : (i + 1) % (res s).length < (res s).length :=
    Nat.mod_lt _ (by omega)
  have hriB := (mem_res_iff (s := s) (by omega)).mp (res_getD_mem hi)
  have hrjB := (mem_res_iff (s := s) (by omega)).mp (res_getD_mem hjlt)
  by_cases hcase : i + 1 < (res s).length
  · rw [Nat.mod_eq_of_lt hcase] at hrjB ⊢
    have hlt : (res s).getD i 0 < (res s).getD (i + 1) 0 :=
      res_getD_lt (by omega) hcase
    have hd : (s + (res s).getD (i + 1) 0 - (res s).getD i 0) % s =
        (res s).getD (i + 1) 0 - (res s).getD i 0 := by
      have h1 : s + (res s).getD (i + 1) 0 - (res s).getD i 0 =
          ((res s).getD (i + 1) 0 - (res s).getD i 0) + s := by omega
      rw [h1, Nat.add_mod_right]
      exact Nat.mod_eq_of_lt (by omega)
    rw [hd]
    refine ⟨by omega, ?_⟩
    have h2 : (res s).getD i 0 + ((res s).getD (i + 1) 0 - (res s).getD i 0) =
        (res s).getD (i + 1) 0 := by omega
    rw [h2]
    exact Nat.mod_eq_of_lt (by omega)
  · have hieq : i + 1 = (res s).length := by omega
    have hmod0 : (i + 1) % (res s).length = 0 := by
      rw [hieq]
      exact Nat.mod_self _
    rw [hmod0] at hrjB ⊢
    have hlt : (res s).getD 0 0 < (res s).getD i 0 :=
      res_getD_lt (by omega) hi
    have hd : (s + (res s).getD 0 0 - (res s).getD i 0) % s =
        s + (res s).getD 0 0 - (res s).getD i 0 :=
      Nat.mod_eq_of_lt (by omega)
    rw [hd]
    refine ⟨by omega, ?_⟩
    have h1 : (res s).getD i 0 + (s + (res s).getD 0 0 - (res s).getD i 0) =
        (res s).getD 0 0 + s := by omega
    rw [h1, Nat.add_mod_right]
    exact Nat.mod_eq_of_lt (by omega)

/-- Invariant of a wheel cursor over `wheelOfSize s`: the index is in
range and `next_value` is congruent to the indexed residue. -/
def WInv (s : Nat) (st : WheelSieveIter) : Prop :=
  st.index < (res s).length ∧ st.next_value % s = (res s).getD st.index 0

theorem wheel_step {s : Nat} (hs : 3 ≤ s) {st : WheelSieveIter} (h : WInv s st) :
    (wheelNext (NextPrime.wheelOfSize s) st).1 = st.next_value ∧
    st.next_value + 1 ≤ (wheelNext (NextPrime.wheelOfSize s) st).2.next_value ∧
    WInv s (wheelNext (NextPrime.wheelOfSize s) st).2 ∧
    st.next_value % s ∈ res s := by
  obtain ⟨hidx, hmod⟩ := h
  obtain ⟨hd1, hd2⟩ := wheel_diff_spec hs hidx
  have hn := res_len_two hs
  refine ⟨rfl, ?_, ⟨?_, ?_⟩, ?_⟩
  · show st.next_value + 1 ≤ st.next_value + (NextPrime.wheelOfSize s).diffs.getD st.index 0
    omega
  · show (st.index + 1) % (NextPrime.wheelOfSize s).diffs.length < (res s).length
    rw [wheelOfSize_diffs_length]
    exact Nat.mod_lt _ (by omega)
  · show (st.next_value + (NextPrime.wheelOfSize s).diffs.getD st.index 0) % s =
      (res s).getD ((st.index + 1) % (NextPrime.wheelOfSize s).diffs.length) 0
    have hriS : (res s).getD st.index 0 < s :=
      ((mem_res_iff (s := s) (by omega)).mp (res_getD_mem hidx)).2.1
    have hme : st.next_value % s = (res s).getD st.index 0 % s := by
      rw [hmod, Nat.mod_eq_of_lt hriS]
    have hmadd := Nat.ModEq.add_right
      ((NextPrime.wheelOfSize s).diffs.getD st.index 0) hme
    have h2 : (st.next_value + (NextPrime.wheelOfSize s).diffs.getD st.index 0) % s =
        ((res s).getD st.index 0 + (NextPrime.wheelOfSize s).diffs.getD st.index 0) % s :=
      hmadd
    rw [wheelOfSize_diffs_length, h2]
    exact hd2
  · rw [hmod]
    exact res_getD_mem hidx

theorem wheel_iter_init {s : Nat} (hs : 3 ≤ s) (start : Nat) :
    ∃ st, NextPrime.iter (NextPrime.wheelOfSize s) start = some st ∧
      WInv s st ∧ start ≤ st.next_value ∧
      ∀ x, start ≤ x → x < st.next_value → x % s ∉ res s := by
  have hn := res_len_two hs
  have hrem : start % s < s := Nat.mod_lt _ (by omega)
  -- the index search always succeeds: the last residue is `s - 1 ≥ start % s`
  have hlast : ∃ i ∈ List.range (res s).length,
      decide (start % s ≤ (res s).getD i 0) = true := by
    obtain ⟨j, hjlt, hjval⟩ := List.mem_iff_getElem.mp (sub_one_mem_res hs)
    refine ⟨j, List.mem_range.mpr hjlt, ?_⟩
    rw [decide_eq_true_eq, getD_eq_elem hjlt, hjval]
    omega
  have hex : ∃ j, (List.range (res s).length).find?
      (fun j => decide (start % s ≤ (res s).getD j 0)) = some j := by
    cases hfind : (List.range (res s).length).find?
        (fun j => decide (start % s ≤ (res s).getD j 0)) with
    | none =>
      exfalso
      rw [List.find?_eq_none] at hfind
      obtain ⟨j, hj1, hj2⟩ := hlast
      exact (hfind j hj1) hj2
    | some v => exact ⟨v, rfl⟩
  obtain ⟨i, hhd⟩ := hex
  have hfound := List.find?_some hhd
  have himem := List.mem_of_find?_eq_some hhd
  rw [List.mem_range] at himem
  rw [decide_eq_true_eq] at hfound
  -- minimality of the found index: `find?` returns the first match
  have hmin : ∀ j, j < i → ¬ (start % s ≤ (res s).getD j 0) := by
    obtain ⟨-, as, bs, hsplit, hbefore⟩ := List.find?_eq_some.mp hhd
    intro j hji hle
    have hjmem : j ∈ List.range (res s).length := List.mem_range.mpr (by omega)
    rw [hsplit] at hjmem
    rcases List.mem_append.mp hjmem with h | h
    · have hb := hbefore j h
      simp only [Bool.not_eq_true', decide_eq_false_iff_not] at hb
      exact hb hle
    · rcases List.mem_cons.mp h with rfl | h2
      · omega
      · have hsort : List.Pairwise (· < ·) (List.range (res s).length) :=
          List.pairwise_lt_range _
        rw [hsplit] at hsort
        have hpc := (List.pairwise_append.mp hsort).2.1
        have := (List.pairwise_cons.mp hpc).1 j h2
        omega
  -- the computed first value
  set v0 := start + ((res s).getD i 0 + s - start % s) % s with hv0
  have hoffs : ((res s).getD i 0 + s - start % s) % s =
      (res s).getD i 0 - start % s := by
    have hriS : (res s).getD i 0 < s :=
      ((mem_res_iff (s := s) (by omega)).mp (res_getD_mem himem)).2.1
    have h1 : (res s).getD i 0 + s - start % s =
        ((res s).getD i 0 - start % s) + s := by omega
    rw [h1, Nat.add_mod_right]
    exact Nat.mod_eq_of_lt (by omega)
  refine ⟨⟨i, v0⟩, ?_, ⟨himem, ?_⟩, ?_, ?_⟩
  · show (match (List.range (res s).length).find?
        (fun j => decide (start % s ≤ (res s).getD j 0)) with
      | some j => some (⟨j, start + ((res s).getD j 0 + s - start % s) % s⟩ : WheelSieveIter)
      | none =>
        if (res s).length = 0 then none
        else some ⟨0, start + ((res s).getD 0 0 + s - start % s) % s⟩) = some ⟨i, v0⟩
    rw [hhd]
  · show v0 % s = (res s).getD i 0
    rw [hv0, hoffs]
    have hriS : (res s).getD i 0 < s :=
      ((mem_res_iff (s := s) (by omega)).mp (res_getD_mem himem)).2.1
    rw [← Nat.mod_add_mod]
    have h2 : start % s + ((res s).getD i 0 - start % s) = (res s).getD i 0 := by
      omega
    rw [h2]
    exact Nat.mod_eq_of_lt hriS
  · exact Nat.le_add_right start _
  · intro x hx1 hx2 hxmem
    rw [hv0, hoffs] at hx2
    have hx2' : x < start + ((res s).getD i 0 - start % s) := hx2
    have hriS : (res s).getD i 0 < s :=
      ((mem_res_iff (s := s) (by omega)).mp (res_getD_mem himem)).2.1
    have hxmod : x % s = start % s + (x - start) := by
      have h3 : x = start + (x - start) := by omega
      conv_lhs => rw [h3]
      rw [← Nat.mod_add_mod]
      exact Nat.mod_eq_of_lt (by omega)
    obtain ⟨j, hjlt, hjval⟩ := List.mem_iff_getElem.mp hxmem
    rw [← getD_eq_elem hjlt] at hjval
    rcases Nat.lt_or_ge j i with hji | hji
    · exact hmin j hji (by omega)
    · have hle := res_getD_le hji hjlt
      omega

theorem wheelOutputs_lb {s : Nat} (hs : 3 ≤ s) :
    ∀ k st, WInv s st →
      ∀ y ∈ wheelOutputs (NextPrime.wheelOfSize s) k st, st.next_value ≤ y := by
  intro k
  induction k with
  | zero =>
    intro st _ y hy
    cases hy
  | succ k ih =>
    intro st hst y hy
    obtain ⟨h1, h2, h3, _⟩ := wheel_step hs hst
    rw [wheelOutputs] at hy
    rcases List.mem_cons.mp hy with rfl | hy2
    · rw [h1]
    · have := ih _ h3 y hy2
      omega

theorem wheelOutputs_pairwise {s : Nat} (hs : 3 ≤ s) :
    ∀ k st, WInv s st →
      List.Pairwise (· < ·) (wheelOutputs (NextPrime.wheelOfSize s) k st) := by
  intro k
  induction k with
  | zero =>
    intro st _
    exact List.Pairwise.nil
  | succ k ih =>
    intro st hst
    obtain ⟨h1, h2, h3, _⟩ := wheel_step hs hst
    rw [wheelOutputs]
    refine List.Pairwise.cons (fun y hy => ?_) (ih _ h3)
    have := wheelOutputs_lb hs k _ h3 y hy
    rw [h1]
    omega

theorem wheelOutputs_residue {s : Nat} (hs : 3 ≤ s) :
    ∀ k st, WInv s st →
      ∀ y ∈ wheelOutputs (NextPrime.wheelOfSize s) k st, y % s ∈ res s := by
  intro k
  induction k with
  | zero =>
    intro st _ y hy
    cases hy
  | succ k ih =>
    intro st hst y hy
    obtain ⟨h1, _, h3, h4⟩ := wheel_step hs hst
    rw [wheelOutputs] at hy
    rcases List.mem_cons.mp hy with rfl | hy2
    · rw [h1]
      exact h4
    · exact ih _ h3 y hy2

/-- Gap property: there is no wheel value strictly between `next_value`
and its successor. -/
theorem wheel_gap {s : Nat} (hs : 3 ≤ s) {st : WheelSieveIter} (h : WInv s st) :
    ∀ t, 0 < t →
      st.next_value + t < (wheelNext (NextPrime.wheelOfSize s) st).2.next_value →
      (st.next_value + t) % s ∉ res s := by
  obtain ⟨hidx, hmod⟩ := h
  have hn := res_len_two hs
  intro t ht hlt hmem
  have hd : (wheelNext (NextPrime.wheelOfSize s) st).2.next_value =
      st.next_value + (NextPrime.wheelOfSize s).diffs.getD st.index 0 := rfl
  rw [hd, wheelOfSize_diffs_getD hidx] at hlt
  have hjlt : (st.index + 1) % (res s).length < (res s).length :=
    Nat.mod_lt _ (by omega)
  have hriB := (mem_res_iff (s := s) (by omega)).mp (res_getD_mem hidx)
  have hrjB := (mem_res_iff (s := s) (by omega)).mp (res_getD_mem hjlt)
  -- the value's residue
  have hvt : (st.next_value + t) % s = ((res s).getD st.index 0 + t) % s := by
    have hme : st.next_value % s = (res s).getD st.index 0 % s := by
      rw [hmod, Nat.mod_eq_of_lt hriB.2.1]
    exact Nat.ModEq.add_right t hme
  rw [hvt] at hmem
  obtain ⟨j, hjmem, hjval⟩ := List.mem_iff_getElem.mp hmem
  rw [← getD_eq_elem hjmem] at hjval
  by_cases hcase : st.index + 1 < (res s).length
  · rw [Nat.mod_eq_of_lt hcase] at hlt
    have hstep : (res s).getD st.index 0 < (res s).getD (st.index + 1) 0 :=
      res_getD_lt (by omega) hcase
    -- d = r(i+1) - r(i), so r(i) + t < r(i+1) < s
    have hdval : (s + (res s).getD (st.index + 1) 0 - (res s).getD st.index 0) % s =
        (res s).getD (st.index + 1) 0 - (res s).getD st.index 0 := by
      have h1 : s + (res s).getD (st.index + 1) 0 - (res s).getD st.index 0 =
          ((res s).getD (st.index + 1) 0 - (res s).getD st.index 0) + s := by omega
      rw [h1, Nat.add_mod_right]
      refine Nat.mod_eq_of_lt ?_
      have := ((mem_res_iff (s := s) (by omega)).mp (res_getD_mem hcase)).2.1
      omega
    rw [hdval] at hlt
    have hlt2 : (res s).getD st.index 0 + t < (res s).getD (st.index + 1) 0 := by omega
    have hsmall : ((res s).getD st.index 0 + t) % s = (res s).getD st.index 0 + t := by
      refine Nat.mod_eq_of_lt ?_
      have := ((mem_res_iff (s := s) (by omega)).mp (res_getD_mem hcase)).2.1
      omega
    rw [hsmall] at hjval
    -- now r j = r i + t with r i < r j < r (i+1): impossible for a sorted complete list
    rcases Nat.lt_or_ge j (st.index + 1) with hj | hj
    · have : (res s).getD j 0 ≤ (res s).getD st.index 0 :=
        res_getD_le (by omega) hidx
      omega
    · have : (res s).getD (st.index + 1) 0 ≤ (res s).getD j 0 :=
        res_getD_le hj hjmem
      omega
  · have hieq : st.index + 1 = (res s).length := by omega
    have hmod0 : (st.index + 1) % (res s).length = 0 := by
      rw [hieq]
      exact Nat.mod_self _
    rw [hmod0] at hlt
    have h0i : (res s).getD 0 0 < (res s).getD st.index 0 :=
      res_getD_lt (by omega) hidx
    have hdval : (s + (res s).getD 0 0 - (res s).getD st.index 0) % s =
        s + (res s).getD 0 0 - (res s).getD st.index 0 :=
      Nat.mod_eq_of_lt (by omega)
    rw [hdval] at hlt
    -- r i + t < s + r 0
    by_cases hwrap : (res s).getD st.index 0 + t < s
    · rw [Nat.mod_eq_of_lt hwrap] at hjval
      -- a residue strictly above the largest residue r (len - 1) ≥ r i: impossible
      have hji : (res s).getD j 0 ≤ (res s).getD (st.index) 0 :=
        res_getD_le (by omega) hidx
      omega
    · have h00 : (res s).getD 0 0 < s :=
        ((mem_res_iff (s := s) (by omega)).mp
          (res_getD_mem (show 0 < (res s).length by omega))).2.1
      have hv2 : (res s).getD st.index 0 + t - s < (res s).getD 0 0 := by omega
      have hveq : ((res s).getD st.index 0 + t) % s =
          (res s).getD st.index 0 + t - s := by
        have hlt2 : (res s).getD st.index 0 + t - s < s := by omega
        conv_lhs => rw [show (res s).getD st.index 0 + t =
          ((res s).getD st.index 0 + t - s) + s by omega]
        rw [Nat.add_mod_right]
        exact Nat.mod_eq_of_lt hlt2
      rw [hveq] at hjval
      have hj0 : (res s).getD 0 0 ≤ (res s).getD j 0 :=
        res_getD_le (Nat.zero_le j) hjmem
      omega

/-- Completeness: every value `≥ next_value` whose residue class is on the
wheel appears among the outputs (within `x - next_value + 1` steps). -/
theorem wheel_complete {s : Nat} (hs : 3 ≤ s) :
    ∀ k st x, WInv s st → st.next_value ≤ x → x - st.next_value < k →
      x % s ∈ res s → x ∈ wheelOutputs (NextPrime.wheelOfSize s) k st := by
  intro k
  induction k with
  | zero =>
    intro st x _ h1 h2 _
    omega
  | succ k ih =>
    intro st x hst h1 h2 hres
    obtain ⟨hv, hinc, hst2, _⟩ := wheel_step hs hst
    rw [wheelOutputs]
    rcases Nat.eq_or_lt_of_le h1 with rfl | hgt
    · exact List.mem_cons.mpr (Or.inl hv.symm)
    · have hge : (wheelNext (NextPrime.wheelOfSize s) st).2.next_value ≤ x := by
        by_contra hcon
        push_neg at hcon
        exact wheel_gap hs hst (x - st.next_value) (by omega)
          (by omega) (by rw [show st.next_value + (x - st.next_value) = x by omega]; exact hres)
      refine List.mem_cons.mpr (Or.inr ?_)
      exact ih _ x hst2 hge (by omega) hres

/-- `Iterator::find` over the wheel returns the first (smallest) accepted
candidate. -/
theorem findAux_first {s : Nat} (hs : 3 ≤ s) (pred : Nat → Bool) :
    ∀ k st x, WInv s st →
      x ∈ wheelOutputs (NextPrime.wheelOfSize s) k st → pred x = true →
      (∀ y, st.next_value ≤ y → y < x → pred y = false) →
      NextPrime.findAux (NextPrime.wheelOfSize s) pred k st = some x := by
  intro k
  induction k with
  | zero =>
    intro st x _ hx
    cases hx
  | succ k ih =>
    intro st x hst hx hpx hleast
    obtain ⟨hv, hinc, hst2, _⟩ := wheel_step hs hst
    rw [wheelOutputs] at hx
    rw [NextPrime.findAux]
    by_cases hp : pred (wheelNext (NextPrime.wheelOfSize s) st).1
    · rw [if_pos hp]
      rcases List.mem_cons.mp hx with rfl | hx2
      · rfl
      · -- head accepted but x in the tail: x > head contradicts minimality
        exfalso
        have hlbx := wheelOutputs_lb hs k _ hst2 x hx2
        have hxgt : (wheelNext (NextPrime.wheelOfSize s) st).1 < x := by
          rw [hv]
          omega
        have hfalse := hleast _ (le_of_eq hv.symm) hxgt
        rw [hfalse] at hp
        exact Bool.noConfusion hp
    · rw [if_neg hp]
      rcases List.mem_cons.mp hx with rfl | hx2
      · exact absurd hpx hp
      · refine ih _ x hst2 hx2 hpx (fun y hy1 hy2 => ?_)
        refine hleast y ?_ hy2
        omega

theorem mem_primesFrom {c M x : Nat} :
    x ∈ primesFrom c M ↔ Nat.Prime x ∧ c ≤ x ∧ x ≤ M := by
  unfold primesFrom
  rw [List.mem_filter, List.mem_range]
  simp only [Bool.and_eq_true, decide_eq_true_eq, isPrimeTD_iff]
  constructor
  · rintro ⟨h1, h2, h3⟩
    exact ⟨h3, h2, by omega⟩
  · rintro ⟨h1, h2, h3⟩
    exact ⟨by omega, h2, h1⟩

theorem checkedFold_mono : ∀ (L : List Nat) (a s : Nat), (∀ p ∈ L, 1 ≤ p) →
    L.foldl WheelSieveRs.checkedMulStep (some a) = some s → a ≤ s := by
  intro L
  induction L with
  | nil =>
    intro a s _ h
    rw [List.foldl_nil] at h
    injection h with h
    omega
  | cons p L ih =>
    intro a s hpos h
    rw [List.foldl_cons] at h
    simp only [WheelSieveRs.checkedMulStep] at h
    by_cases hm : a * p ≤ usizeMax
    · rw [if_pos hm] at h
      have h1 := ih (a * p) s (fun q hq => hpos q (List.mem_cons.mpr (Or.inr hq))) h
      have h2 : 1 ≤ p := hpos p (List.mem_cons.mpr (Or.inl rfl))
      have h3 : a ≤ a * p := Nat.le_mul_of_pos_right a (by omega)
      omega
    · rw [if_neg hm, checkedFold_none] at h
      cases h

theorem primesUpTo_usize_head :
    primesUpTo usizeMax = 2 :: 3 :: primesFrom 5 usizeMax := by
  have h2 : (2 : Nat) ≤ usizeMax := by unfold usizeMax; omega
  rw [primesUpTo_eq_cons h2]
  have h3 : primesFrom 3 usizeMax = 3 :: primesFrom 5 usizeMax := by
    refine primesFrom_cons (by norm_num) (le_refl 3) (by unfold usizeMax; omega)
      (fun q hq h1 h2 => ?_) (by norm_num)
    have := hq.two_le
    omega
  rw [h3]

theorem primorial_some_ge_six {k s : Nat} (hk : 2 ≤ k)
    (h : WheelSieveRs.primorial k = some s) : 6 ≤ s := by
  unfold WheelSieveRs.primorial at h
  rw [generate_primes_spec, primesUpTo_usize_head] at h
  obtain ⟨k2, rfl⟩ : ∃ k2, k = k2 + 2 := ⟨k - 2, by omega⟩
  rw [List.take_succ_cons, List.take_succ_cons, List.foldl_cons, List.foldl_cons] at h
  have hstep : WheelSieveRs.checkedMulStep (WheelSieveRs.checkedMulStep (some 1) 2) 3 =
      some 6 := by decide
  rw [hstep] at h
  exact checkedFold_mono _ 6 s (fun q hq => by
    have := (mem_primesFrom.mp (List.mem_of_mem_take hq)).1.two_le
    omega) h

/-- C6 (amended): for every wheel order `k ≥ 2` whose primorial fits
`usize` (equivalently whose checked construction succeeds, i.e. orders
2 through 15) and every starting value `n`, the `lib.rs` cursor is created
successfully and the sequence it produces consists of values `≥ n`, is
strictly increasing (in particular no two consecutive outputs are equal),
and every output is congruent modulo the wheel modulus to one of the
wheel's residues (hence coprime to every prime factor of the modulus).
For `k ≤ 1` the original claim fails: order 0 panics at cursor creation,
and order 1 (modulus 2) produces the constant sequence `1, 1, …` — see the
counterexample. -/
theorem wheel_cursor_invariants : ∀ k s, 2 ≤ k → WheelSieveRs.primorial k = some s →
    ∀ n, ∃ st, NextPrime.iter (NextPrime.new k) n = some st ∧
      ∀ count,
        List.Pairwise (· < ·) (wheelOutputs (NextPrime.new k) count st) ∧
        ∀ v ∈ wheelOutputs (NextPrime.new k) count st,
          n ≤ v ∧ v % (NextPrime.new k).size ∈ (NextPrime.new k).residues := by
  intro k s hk hp n
  have hs6 : 6 ≤ s := primorial_some_ge_six hk hp
  have hpk : NextPrime.primorial k = s :=
    (checkedFold_agree _ 1 s (by unfold usizeMax; omega) hp).1
  have hnew : NextPrime.new k = NextPrime.wheelOfSize s := by
    unfold NextPrime.new
    rw [hpk]
  rw [hnew]
  obtain ⟨st, hiter, hinv, hge, _⟩ := wheel_iter_init (s := s) (by omega) n
  refine ⟨st, hiter, fun count => ⟨wheelOutputs_pairwise (by omega) count st hinv, ?_⟩⟩
  intro v hv
  refine ⟨?_, ?_⟩
  · have := wheelOutputs_lb (by omega) count st hinv v hv
    omega
  · rw [wheelOfSize_size, wheelOfSize_residues]
    exact wheelOutputs_residue (by omega) count st hinv v hv

theorem wheel_cursor_invariants_witness :
    ∃ st, NextPrime.iter (NextPrime.new 4) 0 = some st ∧
      ∀ count,
        List.Pairwise (· < ·) (wheelOutputs (NextPrime.new 4) count st) ∧
        ∀ v ∈ wheelOutputs (NextPrime.new 4) count st,
          0 ≤ v ∧ v % (NextPrime.new 4).size ∈ (NextPrime.new 4).residues :=
  wheel_cursor_invariants 4 210 (by norm_num) (by decide) 0

/-- C1 (counterexample): with a predicate that exactly decides primality,
`find(0)` returns 11 even though the smallest prime strictly greater than
0 is 2 — the mod-210 wheel only proposes candidates coprime to 210, so the
primes 2, 3, 5, 7 are never tested. -/
theorem find_small_counterexample :
    NextPrime.find 0 isPrimeTD 20 = some 11 ∧
    (isPrimeTD 2 = true ∧ ∀ x, isPrimeTD x = true ↔ Nat.Prime x) ∧
    (0 : Nat) < 2 ∧ (11 : Nat) ≠ 2 := by
  exact ⟨by decide, ⟨by decide, isPrimeTD_iff⟩, by omega, by omega⟩

/-- C1 (amended): for every starting integer `n ≥ 7` and every predicate
that exactly decides primality, `find(n, pred)` terminates (fuel `n + 2`
suffices) and returns the smallest prime strictly greater than `n`; in
particular `find_next_prime(9) = 11` and `find_next_prime(7) = 11`.  For
`n < 7` the original claim fails, because the mod-210 wheel never proposes
the primes 2, 3, 5, 7 (see the counterexample). -/
theorem find_next_prime_spec :
    (∀ n, 7 ≤ n → ∀ pred : Nat → Bool, (∀ x, pred x = true ↔ Nat.Prime x) →
      ∃ p, NextPrime.find n pred (n + 2) = some p ∧ Nat.Prime p ∧ n < p ∧
        ∀ q, Nat.Prime q → n < q → p ≤ q) ∧
    NextPrime.find 9 isPrimeTD 11 = some 11 ∧
    NextPrime.find 7 isPrimeTD 9 = some 11 := by
  refine ⟨?_, by decide, by decide⟩
  intro n hn pred hpred
  have hprim : NextPrime.primorial 4 = 210 := by decide
  have h210 : NextPrime.WHEEL_SIEVE_210 = NextPrime.wheelOfSize 210 := by
    unfold NextPrime.WHEEL_SIEVE_210 NextPrime.WHEEL_PRIME_COUNT NextPrime.new
    rw [hprim]
  -- the least prime above n, which exists by Bertrand's postulate
  obtain ⟨p0, hp0prime, hp0gt, hp0le⟩ :=
    Nat.exists_prime_lt_and_le_two_mul n (by omega)
  have hex : ∃ q, n < q ∧ Nat.Prime q := ⟨p0, hp0gt, hp0prime⟩
  obtain ⟨hpgt, hpprime⟩ := Nat.find_spec hex
  have hpmin : ∀ q, Nat.Prime q → n < q → Nat.find hex ≤ q :=
    fun q hq hnq => Nat.find_min' hex ⟨hnq, hq⟩
  have hple : Nat.find hex ≤ 2 * n := le_trans (hpmin p0 hp0prime hp0gt) hp0le
  -- its residue class lies on the 210-wheel
  have hmem : Nat.find hex % 210 ∈ res 210 := by
    rw [mem_res_iff (by norm_num)]
    have hcop : Nat.Coprime (Nat.find hex) 210 := by
      have hdvd : ∀ q, q < 211 → q ∣ 210 → isPrimeTD q = true → q ≤ 7 := by decide
      rw [Nat.Prime.coprime_iff_not_dvd hpprime]
      intro hd
      have hle := Nat.le_of_dvd (by norm_num) hd
      have := hdvd (Nat.find hex) (by omega) hd ((isPrimeTD_iff _).mpr hpprime)
      omega
    refine ⟨?_, Nat.mod_lt _ (by norm_num), ?_⟩
    · by_contra h
      push_neg at h
      have h0 : Nat.find hex % 210 = 0 := by omega
      have hdp : (210 : Nat) ∣ Nat.find hex := Nat.dvd_of_mod_eq_zero h0
      have h2p : (2 : Nat) ∣ Nat.find hex := dvd_trans (by norm_num) hdp
      rcases (Nat.Prime.eq_one_or_self_of_dvd hpprime 2 h2p) with h' | h' <;> omega
    · rw [← Nat.gcd_rec]
      exact Nat.coprime_comm.mp hcop
  -- the cursor from n + 1, and completeness for the least prime
  obtain ⟨st, hiter, hinv, hge, hminim⟩ := wheel_iter_init (s := 210) (by norm_num) (n + 1)
  have hpge : st.next_value ≤ Nat.find hex := by
    by_contra hcon
    push_neg at hcon
    exact hminim (Nat.find hex) (by omega) hcon hmem
  have hcompl : Nat.find hex ∈
      wheelOutputs (NextPrime.wheelOfSize 210) (n + 2) st :=
    wheel_complete (by norm_num) (n + 2) st (Nat.find hex) hinv hpge
      (by omega) hmem
  have hleastpred : ∀ y, st.next_value ≤ y → y < Nat.find hex → pred y = false := by
    intro y hy1 hy2
    cases hy : pred y with
    | false => rfl
    | true =>
      have hyp := (hpred y).mp hy
      have := hpmin y hyp (by omega)
      omega
  refine ⟨Nat.find hex, ?_, hpprime, hpgt, hpmin⟩
  show (match NextPrime.iter NextPrime.WHEEL_SIEVE_210 (n + 1) with
    | some st2 => NextPrime.findAux NextPrime.WHEEL_SIEVE_210 pred (n + 2) st2
    | none => none) = some (Nat.find hex)
  rw [h210, hiter]
  exact findAux_first (by norm_num) pred (n + 2) st (Nat.find hex) hinv hcompl
    ((hpred _).mpr hpprime) hleastpred

theorem find_next_prime_spec_witness :
    ∃ p, NextPrime.find 9 isPrimeTD 11 = some p ∧ Nat.Prime p ∧ 9 < p ∧
      ∀ q, Nat.Prime q → 9 < q → p ≤ q :=
  find_next_prime_spec.1 9 (by norm_num) isPrimeTD isPrimeTD_iff

theorem wheel_impls_equivalent_witness :
    NextPrime.primorial 4 = 210 ∧
    WheelSieveRs.iter (NextPrime.new 4) 8 = NextPrime.iter (NextPrime.new 4) 8 :=
  ⟨(wheel_impls_equivalent 4 210 (by decide)).1,
   (wheel_impls_equivalent 4 210 (by decide)).2.2 8⟩

/-!
## Embedding of crate `miller-rabin` (`src/crates/miller-rabin/src/lib.rs`)

`BigUint` is modelled as `Nat` and `BigInt` as `Int`.  Modular
exponentiation `b.modpow(&m, w)` is modelled as `b ^ m % w`.  The random
generator `rng` is modelled as a stream `Nat → Nat` of raw draws, one per
round; `rng.gen_biguint_range(&lo, &hi)` maps the round's draw into the
interval `[lo, hi)`.
-/

namespace MillerRabin

/-- Model of the static table `PRIMES`:
`prime_iter::new::<usize>().take_while(|p| *p < 10_000).map(BigUint::from).collect()`.
The `take_while` pulls the usize prime iterator until the predicate first
fails, which happens at the 1230th prime, 10007; so 1230 pulls suffice and
the model takes 1230 sieve outputs before applying `takeWhile`.
`PRIMES_spec` below proves the table is exactly the ascending list of all
primes below 10000 (in particular that the chosen fuel loses nothing). -/
def PRIMES : List Nat :=
  (sieveList usizeMax 1230 (initState usizeMax)).takeWhile (fun p => decide (p < 10000))

/-- The trial-division loop of `is_probable_prime_with_rng`
(`for p in PRIMES.iter() { if w == p { return true; } if w % p == *ZERO { return false; } }`):
`some b` models an early `return b`, `none` models falling off the loop end. -/
def trialDivision : List Nat → Nat → Option Bool
  | [], _ => none
  | p :: ps, w =>
    if w = p then some true
    else if w % p = 0 then some false
    else trialDivision ps w

/-- Model of `BigUint::trailing_zeros` (step 1, `w_minus_1.trailing_zeros()`),
made total by structural fuel: fuel `n` always suffices for argument `n`
because at most `log2 n` halvings happen.  The source unwraps the `Option`
with `.expect("always w >= 2")`; the `None` case arises only for the input
`0`, and the call site passes `w - 1 ≥ 1`, so the `expect` never fires. -/
def trailingZeros : Nat → Nat → Nat
  | 0, _ => 0
  | fuel+1, n => if n % 2 = 0 ∧ n ≠ 0 then trailingZeros fuel (n / 2) + 1 else 0

/-- Model of `rng.gen_biguint_range(&lo, &hi)` (steps 4.1–4.2): the round's
raw draw `r` mapped into `[lo, hi)`. -/
def gen_biguint_range (lo hi r : Nat) : Nat := lo + r % (hi - lo)

/-- Step 4.5 of a round: the iterator chain
`(1..a).scan(z, |z, _| Some(z.modpow(&TWO, w))).find(|z| z == &w_minus_1 || *z == *ONE)`.
The `scan` closure never assigns to its `&mut` state `z`, so the state keeps
its initial value and each of the `a - 1` yielded items is the same value
`z^2 mod w` — not the chain of repeated squarings `z^2, z^4, z^8, ...` that
the comments (FIPS 186-5, steps 4.5/4.5.1) intend.  The model reproduces the
code as written: when `a - 1 = 0` the range is empty and `find` is `none`;
otherwise `find` returns `some (z^2 mod w)` if that value equals `w - 1` or
`1`, and `none` if none of the identical items matches. -/
def mrFind (w a z : Nat) : Option Nat :=
  if a - 1 = 0 then none
  else if z ^ 2 % w = w - 1 ∨ z ^ 2 % w = 1 then some (z ^ 2 % w)
  else none

/-- One round of the loop at step 4 (steps 4.3–4.7): `true` means the round
passes (`continue`), `false` means composite is declared (`return false`). -/
def mrRound (w m a b : Nat) : Bool :=
  let z := b ^ m % w
  if z = 1 ∨ z = w - 1 then true
  else
    match mrFind w a z with
    | some z2 => decide (z2 = w - 1)
    | none => false

/-- `is_probable_prime_with_rng`: the `w <= ONE` guard, the trial-division
loop over `PRIMES`, then `iter` Miller-Rabin rounds; the round loop returns
`false` as soon as one round fails and `true` (step 5) when all pass, which
is `List.all` over the rounds. -/
def is_probable_prime_with_rng (w iter : Nat) (rng : Nat → Nat) : Bool :=
  if w ≤ 1 then false
  else
    match trialDivision PRIMES w with
    | some b => b
    | none =>
      let wm1 := w - 1
      let a := trailingZeros wm1 wm1
      let m := wm1 >>> a
      (List.range iter).all (fun i => mrRound w m a (gen_biguint_range 2 wm1 (rng i)))

/-- `is_probable_prime` runs the test with `OsRng`; the source of randomness
stays an explicit parameter of the model. -/
def is_probable_prime (w iter : Nat) (rng : Nat → Nat) : Bool :=
  is_probable_prime_with_rng w iter rng

/-- `BigInt::to_biguint`: `None` exactly on negative inputs, `Some` of the
magnitude otherwise (so `0` converts to `Some(0)`). -/
def to_biguint (w : Int) : Option Nat := if w < 0 then none else some w.toNat

/-- `is_probable_prime_bigint`: convert with `to_biguint`, run the unsigned
test on success, return `false` when conversion fails. -/
def is_probable_prime_bigint (w : Int) (iter : Nat) (rng : Nat → Nat) : Bool :=
  match to_biguint w with
  | some u => is_probable_prime u iter rng
  | none => false

end MillerRabin

/-!
### The trial-division table

`PRIMES_spec` identifies the model's `PRIMES` with `primesUpTo 9999`.
The length computation is chunked so that no single kernel evaluation
recurses over more than 2500 list cells.
-/

theorem filter_chunk0 : (List.filter isPrimeTD (List.range' 0 2500)).length = 367 := by decide

theorem filter_chunk1 : (List.filter isPrimeTD (List.range' 2500 2500)).length = 302 := by decide

theorem filter_chunk2 : (List.filter isPrimeTD (List.range' 5000 2500)).length = 281 := by decide

theorem filter_chunk3 : (List.filter isPrimeTD (List.range' 7500 2500)).length = 279 := by decide

theorem primesUpTo_9999_chunks :
    primesUpTo 9999 = List.filter isPrimeTD (List.range' 0 2500) ++
      (List.filter isPrimeTD (List.range' 2500 2500) ++
        (List.filter isPrimeTD (List.range' 5000 2500) ++
          List.filter isPrimeTD (List.range' 7500 2500))) := by
  have a1 := List.range'_append_1 0 2500 7500
  norm_num at a1
  have a2 := List.range'_append_1 2500 2500 5000
  norm_num at a2
  have a3 := List.range'_append_1 5000 2500 2500
  norm_num at a3
  unfold primesUpTo
  rw [List.range_eq_range', show (9999 : Nat) + 1 = 10000 from by norm_num,
    ← a1, ← a2, ← a3, List.filter_append, List.filter_append, List.filter_append]

theorem primesUpTo_9999_length : (primesUpTo 9999).length = 1229 := by
  rw [primesUpTo_9999_chunks]
  simp only [List.length_append, filter_chunk0, filter_chunk1, filter_chunk2, filter_chunk3]

theorem PRIMES_spec : MillerRabin.PRIMES = primesUpTo 9999 := by
  have husizeMax : (10007 : Nat) ≤ usizeMax := by unfold usizeMax; norm_num
  have hA : primesUpTo 9999 = List.filter isPrimeTD (List.range 10000) := by
    unfold primesUpTo
    norm_num
  have h2 : List.range' 10000 (usizeMax - 9999) =
      List.range' 10000 8 ++ List.range' 10008 (usizeMax - 10007) := by
    have h := List.range'_append_1 10000 8 (usizeMax - 10007)
    norm_num at h
    rw [show usizeMax - 10007 + 8 = usizeMax - 9999 from by omega] at h
    exact h.symm
  have hfilter8 : List.filter isPrimeTD (List.range' 10000 8) = [10007] := by decide
  have husz : primesUpTo usizeMax =
      List.filter isPrimeTD (List.range 10000) ++
        (10007 :: List.filter isPrimeTD (List.range' 10008 (usizeMax - 10007))) := by
    unfold primesUpTo
    rw [range_split 10000 (usizeMax + 1) (by omega), List.filter_append,
      show usizeMax + 1 - 10000 = usizeMax - 9999 from by omega, h2,
      List.filter_append, hfilter8]
    rfl
  have hlenA : (List.filter isPrimeTD (List.range 10000)).length = 1229 := by
    rw [← hA]
    exact primesUpTo_9999_length
  have hpos : ∀ a ∈ List.filter isPrimeTD (List.range 10000),
      (fun p => decide (p < 10000)) a = true := by
    intro a ha
    rw [List.mem_filter] at ha
    simp only [decide_eq_true_eq]
    exact List.mem_range.mp ha.1
  unfold MillerRabin.PRIMES
  rw [generate_primes_spec, husz, List.take_append_eq_append_take, hlenA,
    show (1230 : Nat) - 1229 = 1 from by norm_num,
    List.take_of_length_le (by rw [hlenA]; norm_num),
    show (10007 :: List.filter isPrimeTD (List.range' 10008 (usizeMax - 10007))).take 1
      = [10007] from rfl,
    List.takeWhile_append_of_pos hpos,
    show ([10007] : List Nat).takeWhile (fun p => decide (p < 10000)) = [] from rfl,
    List.append_nil, ← hA]

theorem trialDivision_none_iff {w : Nat} : ∀ l : List Nat,
    MillerRabin.trialDivision l w = none ↔ ∀ p ∈ l, w ≠ p ∧ w % p ≠ 0
  | [] => by simp [MillerRabin.trialDivision]
  | p :: ps => by
    simp only [MillerRabin.trialDivision]
    by_cases h1 : w = p
    · rw [if_pos h1]
      constructor
      · intro h
        exact Option.noConfusion h
      · intro h
        exact absurd h1 (h p (List.mem_cons_self p ps)).1
    · rw [if_neg h1]
      by_cases h2 : w % p = 0
      · rw [if_pos h2]
        constructor
        · intro h
          exact Option.noConfusion h
        · intro h
          exact absurd h2 (h p (List.mem_cons_self p ps)).2
      · rw [if_neg h2]
        rw [trialDivision_none_iff ps]
        constructor
        · intro h q hq
          rcases List.mem_cons.mp hq with hq' | hq'
          · subst hq'
            exact ⟨h1, h2⟩
          · exact h q hq'
        · intro h q hq
          exact h q (List.mem_cons_of_mem p hq)

theorem mrLoop_eq (w iter : Nat) (rng : Nat → Nat) (h1 : ¬ w ≤ 1)
    (htd : MillerRabin.trialDivision MillerRabin.PRIMES w = none) :
    MillerRabin.is_probable_prime_with_rng w iter rng =
      (List.range iter).all (fun i =>
        MillerRabin.mrRound w ((w - 1) >>> MillerRabin.trailingZeros (w - 1) (w - 1))
          (MillerRabin.trailingZeros (w - 1) (w - 1))
          (MillerRabin.gen_biguint_range 2 (w - 1) (rng i))) := by
  unfold MillerRabin.is_probable_prime_with_rng
  rw [if_neg h1, htd]

/-- C2: the claim that the oracle agrees with true primality for every
`w < 10000^2`, every round count and every random source is refuted by the
code itself.  The internal `scan` in step 4.5 never mutates its state, so
the squaring chain of FIPS 186-5 degenerates to `a - 1` copies of one value,
and a round can reject a genuine prime.  Concretely: `10009` is prime and
below `10000^2`, yet with any positive round count and a random source whose
draws map to the base `b = 7` (here the constant draw `5`), the oracle
answers `false`.  The boundary cases of the claim do hold (`0, 1, 4 ↦ false`
and `2, 3 ↦ true` for every random source), so the failure is in the general
agreement statement, against the code's own FIPS-comment intent: a code bug. -/
theorem oracle_code_bug :
    (∀ rng : Nat → Nat,
      MillerRabin.is_probable_prime_with_rng 0 40 rng = false ∧
      MillerRabin.is_probable_prime_with_rng 1 40 rng = false ∧
      MillerRabin.is_probable_prime_with_rng 2 40 rng = true ∧
      MillerRabin.is_probable_prime_with_rng 3 40 rng = true ∧
      MillerRabin.is_probable_prime_with_rng 4 40 rng = false) ∧
    Nat.Prime 10009 ∧ 10009 < 10000 * 10000 ∧
    ∀ iter : Nat, 1 ≤ iter →
      MillerRabin.is_probable_prime_with_rng 10009 iter (fun _ => 5) = false := by
  have hp : Nat.Prime 10009 := (isPrimeTD_iff 10009).mp (by decide)
  refine ⟨fun rng => ⟨rfl, rfl, rfl, rfl, rfl⟩, hp, by norm_num, ?_⟩
  intro iter hiter
  have htd : MillerRabin.trialDivision MillerRabin.PRIMES 10009 = none := by
    rw [PRIMES_spec, trialDivision_none_iff]
    intro p hpmem
    rw [mem_primesUpTo] at hpmem
    refine ⟨by omega, ?_⟩
    intro hmod
    rcases hp.eq_one_or_self_of_dvd p (Nat.dvd_of_mod_eq_zero hmod) with h | h
    · have := hpmem.1.one_lt
      omega
    · omega
  rw [mrLoop_eq 10009 iter _ (by omega) htd, List.all_eq_false]
  refine ⟨0, List.mem_range.mpr (by omega), ?_⟩
  decide

theorem oracle_code_bug_witness :
    MillerRabin.is_probable_prime_with_rng 10009 40 (fun _ => 5) = false :=
  oracle_code_bug.2.2.2 40 (by norm_num)

/-- C8 (counterexample): the claim says negative *and zero* inputs are
rejected "without attempting conversion to the unsigned representation".
For zero this is false about the code: `to_biguint(0)` succeeds with
`Some(0)`, and `is_probable_prime_bigint(0)` therefore does convert and
delegates to the unsigned test (which then rejects `0` via its `w <= 1`
guard).  Only negative inputs short-circuit at the conversion. -/
theorem bigint_zero_converts :
    MillerRabin.to_biguint 0 = some 0 ∧
    MillerRabin.is_probable_prime_bigint 0 40 (fun _ => 0) =
      MillerRabin.is_probable_prime 0 40 (fun _ => 0) :=
  ⟨rfl, rfl⟩

/-- C8 (amended): for every round count and every random source the signed
variant returns `false` on every input `≤ 0`; negative inputs fail the
conversion (`to_biguint` is `none`) and are rejected without reaching the
unsigned test, while zero converts successfully (`to_biguint 0 = some 0`)
and is rejected by the unsigned test's `w ≤ 1` guard. -/
theorem bigint_nonpositive_false :
    (∀ w : Int, w ≤ 0 → ∀ iter : Nat, ∀ rng : Nat → Nat,
      MillerRabin.is_probable_prime_bigint w iter rng = false) ∧
    (∀ w : Int, w < 0 → MillerRabin.to_biguint w = none) ∧
    MillerRabin.to_biguint 0 = some 0 := by
  refine ⟨?_, ?_, rfl⟩
  · intro w hw iter rng
    unfold MillerRabin.is_probable_prime_bigint MillerRabin.to_biguint
    by_cases hneg : w < 0
    · rw [if_pos hneg]
    · rw [if_neg hneg]
      have hw0 : w = 0 := le_antisymm hw (not_lt.mp hneg)
      subst hw0
      rfl
  · intro w hw
    unfold MillerRabin.to_biguint
    rw [if_pos hw]

theorem bigint_nonpositive_false_witness :
    MillerRabin.is_probable_prime_bigint (-7) 40 (fun _ => 0) = false ∧
    MillerRabin.is_probable_prime_bigint 0 40 (fun _ => 0) = false ∧
    MillerRabin.to_biguint (-7) = none :=
  ⟨bigint_nonpositive_false.1 (-7) (by norm_num) 40 (fun _ => 0),
   bigint_nonpositive_false.1 0 (le_refl 0) 40 (fun _ => 0),
   bigint_nonpositive_false.2.1 (-7) (by norm_num)⟩

end PrimeAlgos
